import Mathlib

/-!
Shallow embedding of the rebacdb relation-graph engine
(src/rebacdb/src/lib.rs) and proofs about its specification.

Vertices are identified by `VertexId` (namespace, id, optional relation).
The store is a list of vertices; edges are stored as lists of `VertexId`
on both endpoints (`edges_out` / `edges_in`), mirroring the Rust
`HashSet<Arc<Vertex>>` fields whose elements compare by vertex id.
Hash-set iteration order is modelled by list order (one admissible order).
-/

namespace Rebacs

/-- The wildcard id literal, `WILDCARD_ID` in the source. -/
def WILDCARD_ID : String := "*"

/-- Identifier of a vertex: namespace, id and optional relation
(mirrors `VertexId` in the source; `ns` stands for the `namespace` field). -/
structure VertexId where
  ns : String
  id : String
  relation : Option String
deriving DecidableEq, Repr

/-- A vertex of the graph: its id plus outgoing and incoming edge sets
(mirrors `Vertex`; edges are recorded by target/source vertex id). -/
structure Vertex where
  id : VertexId
  edges_out : List VertexId
  edges_in : List VertexId
deriving DecidableEq, Repr

/-- The relation graph: the vertex store (`RelationGraph.verticies`). -/
structure RelationGraph where
  verticies : List Vertex
deriving DecidableEq, Repr

/-- An object `(namespace, id)` (mirrors `Object`). -/
structure Object where
  ns : String
  id : String
deriving DecidableEq, Repr

/-- A set `(namespace, id, relation)` (mirrors `Set`). -/
structure Set where
  ns : String
  id : String
  relation : String
deriving DecidableEq, Repr

/-- Source of an edge: either an object or a set (mirrors `ObjectOrSet`). -/
inductive ObjectOrSet where
  | obj : Object → ObjectOrSet
  | set : Set → ObjectOrSet
deriving DecidableEq, Repr

/-- Vertex id denoted by a `Set`. -/
def Set.vertexId (s : Set) : VertexId := ⟨s.ns, s.id, some s.relation⟩

/-- Vertex id denoted by an `ObjectOrSet` (mirrors `ObjectOrSet::vertex_id`). -/
def ObjectOrSet.vertexId : ObjectOrSet → VertexId
  | .obj o => ⟨o.ns, o.id, none⟩
  | .set s => ⟨s.ns, s.id, some s.relation⟩

/-- Namespace of an `ObjectOrSet` (mirrors `ObjectOrSet::namespace`). -/
def ObjectOrSet.nsOf : ObjectOrSet → String
  | .obj o => o.ns
  | .set s => s.ns

/-- Relation of an `ObjectOrSet` (mirrors `ObjectOrSet::relation`). -/
def ObjectOrSet.relationOf : ObjectOrSet → Option String
  | .obj _ => none
  | .set s => some s.relation

/-- The empty graph (`RelationGraph::default`). -/
def emptyGraph : RelationGraph := ⟨[]⟩

/-- Look a vertex up by id (`verticies.get`). -/
def lookupVertex (g : RelationGraph) (i : VertexId) : Option Vertex :=
  g.verticies.find? fun v => v.id = i

/-- Insert an id into an edge set if absent (hash-set insertion). -/
def insertEdge (x : VertexId) (l : List VertexId) : List VertexId :=
  if x ∈ l then l else l ++ [x]

/-- Per-vertex update of `add_edge`: extend `edges_out` of the vertex named
`a` and `edges_in` of the vertex named `b`. -/
def updEdge (a b : VertexId) (v : Vertex) : Vertex :=
  let v1 := if v.id = a then { v with edges_out := insertEdge b v.edges_out } else v
  if v1.id = b then { v1 with edges_in := insertEdge a v1.edges_in } else v1

/-- Add a directed edge `a → b`, updating both adjacency sets
(mirrors the free function `add_edge`). -/
def add_edge (g : RelationGraph) (a b : VertexId) : RelationGraph :=
  ⟨g.verticies.map (updEdge a b)⟩

/-- Get-or-create a vertex for an id (the `get_or_create` closure in
`RelationGraph::insert`); new vertices start with empty edge sets. -/
def getOrCreate (g : RelationGraph) (i : VertexId) : RelationGraph :=
  match lookupVertex g i with
  | some _ => g
  | none => ⟨g.verticies ++ [⟨i, [], []⟩]⟩

/-- Insert a relation `src → dst` with wildcard scaffolding
(mirrors `RelationGraph::insert`). -/
def RelationGraph.insert (g : RelationGraph) (src : ObjectOrSet) (dst : Set) :
    RelationGraph :=
  let src_without_relation := src.relationOf = none
  let src_wildcard : VertexId := ⟨src.nsOf, WILDCARD_ID, src.relationOf⟩
  let dst_wildcard : VertexId := ⟨dst.ns, WILDCARD_ID, some dst.relation⟩
  let g1 := getOrCreate g src_wildcard
  let g2 := getOrCreate g1 src.vertexId
  let g3 := getOrCreate g2 dst_wildcard
  let g4 := getOrCreate g3 dst.vertexId
  let g5 :=
    if src_without_relation ∧ src.vertexId.id ≠ WILDCARD_ID then
      add_edge g4 src.vertexId src_wildcard
    else if ¬ src_without_relation then
      add_edge g4 src_wildcard src.vertexId
    else g4
  let g6 := add_edge g5 dst_wildcard dst.vertexId
  add_edge g6 src.vertexId dst.vertexId

/-- Per-vertex update of the edge removal in `remove`: drop `did` from the
`edges_out` of the vertex named `sid` and `sid` from the `edges_in` of the
vertex named `did`. -/
def updRm (sid did : VertexId) (v : Vertex) : Vertex :=
  let v1 := if v.id = sid then
      { v with edges_out := v.edges_out.filter fun x => x ≠ did } else v
  if v1.id = did then
      { v1 with edges_in := v1.edges_in.filter fun x => x ≠ sid } else v1

/-- Garbage-collect the vertex named `i` when it has become fully isolated
(the two conditional `verticies.remove` steps at the end of `remove`). -/
def gcVertex (g : RelationGraph) (i : VertexId) : RelationGraph :=
  match lookupVertex g i with
  | some v =>
    if v.edges_in = [] ∧ v.edges_out = [] then
      ⟨g.verticies.filter fun w => w.id ≠ i⟩
    else g
  | none => g

/-- Remove the directed edge `src → dst` and garbage-collect endpoints that
become fully isolated (mirrors `RelationGraph::remove`). -/
def RelationGraph.remove (g : RelationGraph) (src : ObjectOrSet) (dst : Set) :
    RelationGraph :=
  match lookupVertex g src.vertexId, lookupVertex g dst.vertexId with
  | some s, some d =>
    gcVertex (gcVertex ⟨g.verticies.map (updRm s.id d.id)⟩ s.id) d.id
  | _, _ => g

/-- Direct-edge query (mirrors `RelationGraph::has`). -/
def RelationGraph.has (g : RelationGraph) (src : ObjectOrSet) (dst : Set) : Bool :=
  match lookupVertex g src.vertexId, lookupVertex g dst.vertexId with
  | some s, some d => d.id ∈ s.edges_out
  | _, _ => false

/-- Destination-match predicate of `check`: the frontier vertex is the target
itself, or the target-namespace wildcard with the target's relation. -/
def dstMatch (dst : Set) (i : VertexId) : Bool :=
  i = dst.vertexId ∨
    (i.ns = dst.ns ∧ i.id = WILDCARD_ID ∧ i.relation = some dst.relation)

/-- Out-neighbors of an id, as recorded in the store. -/
def outIds (g : RelationGraph) (i : VertexId) : List VertexId :=
  match lookupVertex g i with
  | some v => v.edges_out
  | none => []

/-- In-neighbors of an id, as recorded in the store. -/
def inIds (g : RelationGraph) (i : VertexId) : List VertexId :=
  match lookupVertex g i with
  | some v => v.edges_in
  | none => []

/-- One BFS level of `check`: process the frontier in order, skipping
already-visited vertices when `distance > 1`, returning on a destination
match, otherwise collecting out-neighbors for the next level and marking
the vertex visited. Result: (match found, next frontier, visited). -/
def checkLevel (g : RelationGraph) (dst : Set) (distance : Nat) :
    List VertexId → List VertexId → Bool × List VertexId × List VertexId
  | [], visited => (false, [], visited)
  | n :: rest, visited =>
    if distance > 1 ∧ n ∈ visited then checkLevel g dst distance rest visited
    else if dstMatch dst n then (true, [], visited)
    else
      let r := checkLevel g dst distance rest (visited ++ [n])
      (r.1, outIds g n ++ r.2.1, r.2.2)

/-- The limit guard of `check`: a set limit is exceeded by the current
distance. -/
def limitExceeded : Option Nat → Nat → Prop
  | some l, distance => distance > l
  | none, _ => False

instance (limit : Option Nat) (distance : Nat) :
    Decidable (limitExceeded limit distance) :=
  match limit with
  | some _ => inferInstanceAs (Decidable (_ > _))
  | none => inferInstanceAs (Decidable False)

/-- The level-synchronous BFS loop of `check`; the fuel argument bounds the
number of levels (set large enough in `RelationGraph.check` that the loop
always terminates for the graph at hand). -/
def checkLoop (g : RelationGraph) (dst : Set) (limit : Option Nat) :
    Nat → Nat → List VertexId → List VertexId → Bool
  | 0, _, _, _ => false
  | fuel + 1, distance, frontier, visited =>
    if frontier = [] then false
    else if limitExceeded limit distance then false
    else
      let r := checkLevel g dst distance frontier visited
      if r.1 then true
      else checkLoop g dst limit fuel (distance + 1) r.2.1 r.2.2

/-- Fuel bound for the traversals: strictly more than the number of vertices. -/
def graphFuel (g : RelationGraph) : Nat :=
  g.verticies.length + (g.verticies.map fun v => v.edges_out.length).sum + 2

/-- Source resolution of `check`: the exact vertex, or else the
same-namespace object wildcard `(ns, "*")` with no relation. -/
def resolveSrc (g : RelationGraph) (src : ObjectOrSet) : Option Vertex :=
  match lookupVertex g src.vertexId with
  | some v => some v
  | none => lookupVertex g ⟨src.nsOf, WILDCARD_ID, none⟩

/-- Transitive reachability query (mirrors `RelationGraph::check`). -/
def RelationGraph.check (g : RelationGraph) (src : ObjectOrSet) (dst : Set)
    (limit : Option Nat) : Bool :=
  match resolveSrc g src with
  | none => false
  | some sv => checkLoop g dst limit (graphFuel g) 1 sv.edges_out []

/-- Start-vertex resolution of `expand`: the destination vertex, or else the
same-namespace wildcard set `(ns, "*", relation)`. -/
def expandStart (g : RelationGraph) (dst : Set) : Option Vertex :=
  match lookupVertex g dst.vertexId with
  | some v => some v
  | none => lookupVertex g ⟨dst.ns, WILDCARD_ID, some dst.relation⟩

/-- The reverse-BFS loop of `expand`, processed as a FIFO queue of
(vertex, accumulated path) entries — observably identical to the
level-synchronous loop in the source, which processes each level in order
and appends children in processing order. A visited vertex is skipped;
a vertex without relation (an object) is emitted with its path and not
expanded; a set vertex is appended to the path, expanded through its
in-edges and marked visited. -/
def expandLoop (g : RelationGraph) :
    Nat → List (VertexId × List VertexId) → List VertexId →
    List (VertexId × List VertexId) → List (VertexId × List VertexId)
  | 0, _, _, acc => acc
  | _ + 1, [], _, acc => acc
  | fuel + 1, (n, path) :: rest, visited, acc =>
    if n ∈ visited then expandLoop g fuel rest visited acc
    else if n.relation = none then
      expandLoop g fuel rest visited (acc ++ [(n, path)])
    else
      let path1 := path ++ [n]
      let children := (inIds g n).map fun u => (u, path1)
      expandLoop g fuel (rest ++ children) (visited ++ [n]) acc

/-- Fuel bound for `expandLoop`: dominates the total number of queue entries
ever enqueued (at most one batch of in-edges per newly visited vertex). -/
def expandFuel (g : RelationGraph) : Nat :=
  g.verticies.length + (g.verticies.map fun v => v.edges_in.length).sum * 2 + 2

/-- Rebuild a `Set` value from a vertex id (the `Set(w.id.clone())` mapping
at the end of `expand`; `relation()` unwraps to `""` when absent). -/
def toSet (i : VertexId) : Set := ⟨i.ns, i.id, i.relation.getD ""⟩

/-- Reverse expansion (mirrors `RelationGraph::expand`): all objects
transitively related to `dst` over in-edges, each with its discovery path. -/
def RelationGraph.expand (g : RelationGraph) (dst : Set) :
    List (Object × List Set) :=
  match expandStart g dst with
  | none => []
  | some sv =>
    let entries := sv.edges_in.map fun u => (u, [sv.id])
    (expandLoop g (expandFuel g) entries [sv.id] []).map fun e =>
      (⟨e.1.ns, e.1.id⟩, e.2.map toSet)

/-! Savefile codec. The writer iterates the store in the `BTreeSet` order
(lexicographic on namespace, id, relation with `none` first) and produces a
list of text lines; the reader consumes a list of lines, with `none`
modelling a panic of the Rust code (failed `unwrap` or out-of-range slice). -/

/-- Lexicographic comparison of character lists by code point (agrees with
the byte-lexicographic order Rust uses on strings, since UTF-8 is
order-preserving). -/
def charsLt : List Char → List Char → Bool
  | [], [] => false
  | [], _ :: _ => true
  | _ :: _, [] => false
  | a :: as, b :: bs =>
    if a.toNat < b.toNat then true
    else if b.toNat < a.toNat then false
    else charsLt as bs

/-- String order used by the derived `Ord` on `VertexId`. -/
def strLt (a b : String) : Bool := charsLt a.data b.data

/-- Non-strict version of `strLt`. -/
def strLe (a b : String) : Bool := strLt a b || a == b

/-- Total order on vertex ids mirroring the derived `Ord for VertexId`
(namespace, then id, then relation with `None < Some`). -/
def vidLe (a b : VertexId) : Bool :=
  if a.ns ≠ b.ns then strLt a.ns b.ns
  else if a.id ≠ b.id then strLt a.id b.id
  else
    match a.relation, b.relation with
    | none, _ => true
    | some _, none => false
    | some x, some y => strLe x y

/-- Insert a vertex into a list sorted by `vidLe` on ids. -/
def insertSorted (v : Vertex) : List Vertex → List Vertex
  | [] => [v]
  | w :: rest =>
    if vidLe v.id w.id then v :: w :: rest else w :: insertSorted v rest

/-- Sort the store by vertex id (the `BTreeSet` iteration order). -/
def sortVerticies : List Vertex → List Vertex
  | [] => []
  | v :: rest => insertSorted v (sortVerticies rest)

/-- Join rendered sources with a comma and space (the `reduce` in the
writer). -/
def joinComma : List String → String
  | [] => ""
  | x :: xs => xs.foldl (fun acc y => acc ++ ", " ++ y) x

/-- Render one in-edge source for the savefile: `self` when it names the
current block, else `namespace:id`, suffixed with `#relation` for sets. -/
def renderSrc (curNs curId : String) (x : VertexId) : String :=
  let obj := if x.ns = curNs ∧ x.id = curId then "self" else x.ns ++ ":" ++ x.id
  match x.relation with
  | some rel => obj ++ "#" ++ rel
  | none => obj

/-- Emit the savefile lines for a sorted vertex list, tracking the current
`(namespace, id)` block (mirrors the loop of `write_savefile`: a blank line
and a `[namespace:id]` header at each block change, then one
`relation = [ sources ]` line per set vertex, in-edges with wildcard ids
filtered out). -/
def writeLines : List Vertex → String × String → List String
  | [], _ => []
  | v :: rest, current =>
    let header :=
      if current ≠ (v.id.ns, v.id.id) then
        ["", "[" ++ v.id.ns ++ ":" ++ v.id.id ++ "]"]
      else []
    let current1 := (v.id.ns, v.id.id)
    let srcs := (v.edges_in.filter fun x => x.id ≠ WILDCARD_ID).map
      (renderSrc current1.1 current1.2)
    let relLine :=
      match v.id.relation with
      | some rel => [rel ++ " = [ " ++ joinComma srcs ++ " ]"]
      | none => []
    header ++ relLine ++ writeLines rest current1

/-- Write the savefile (mirrors `write_savefile`), as a list of lines. -/
def writeSavefile (g : RelationGraph) : List String :=
  writeLines (sortVerticies g.verticies) ("", "")

/-- Index of the first occurrence of a character (the byte index returned by
`str::find` — identical for the ASCII data handled here). -/
def firstIdx (c : Char) : List Char → Nat
  | [] => 0
  | x :: rest => if x = c then 0 else firstIdx c rest + 1

/-- Split before the first occurrence of `sep`, returning the part before it
and the part after it. -/
def findSep (sep : List Char) : List Char → Option (List Char × List Char)
  | [] => none
  | c :: rest =>
    if sep.isPrefixOf (c :: rest) then some ([], (c :: rest).drop sep.length)
    else
      match findSep sep rest with
      | some (b, a) => some (c :: b, a)
      | none => none

/-- Split on a separator substring (Rust `str::split` with a string pattern);
fueled by the input length. -/
def splitSepF (sep : List Char) : Nat → List Char → List (List Char)
  | 0, l => [l]
  | fuel + 1, l =>
    match findSep sep l with
    | none => [l]
    | some (b, a) => b :: splitSepF sep fuel a

/-- Whitespace test used by `trim`. -/
def isWS (c : Char) : Bool := c = ' ' || c = '\t' || c = '\n' || c = '\r'

/-- Trim whitespace from both ends (Rust `str::trim`). -/
def trim (l : List Char) : List Char :=
  ((l.dropWhile isWS).reverse.dropWhile isWS).reverse

/-- Parse one source token of a relation line (the body of the `for obj in
arr` loop of `read_savefile`); `none` models the slice panic that occurs
when a `:` separator appears at or after the `#`. -/
def parseToken (dns did : String) (t : List Char) : Option ObjectOrSet :=
  if '#' ∈ t then
    let sep2 := firstIdx '#' t
    let rel := String.mk (t.drop (sep2 + 1))
    if ':' ∈ t then
      let sep1 := firstIdx ':' t
      if sep1 + 1 > sep2 then none
      else
        some (.set ⟨String.mk (t.take sep1),
          String.mk ((t.drop (sep1 + 1)).take (sep2 - (sep1 + 1))), rel⟩)
    else some (.set ⟨dns, did, rel⟩)
  else
    if ':' ∈ t then
      let sep1 := firstIdx ':' t
      some (.obj ⟨String.mk (t.take sep1), String.mk (t.drop (sep1 + 1))⟩)
    else some (.obj ⟨dns, did⟩)

/-- Insert all parsed sources of one relation line into the graph. -/
def insertTokens (dns did rel : String) (g : RelationGraph) :
    List (List Char) → Option RelationGraph
  | [] => some g
  | t :: ts =>
    match parseToken dns did t with
    | some src => insertTokens dns did rel (g.insert src ⟨dns, did, rel⟩) ts
    | none => none

/-- Process the savefile lines (the loop of `read_savefile`): a bracketed
line sets the current destination block (panicking — `none` — when it has
no `:`); a line containing `=`, `[` and `]` inside a block is a relation
line (panicking when its `]` precedes its `[`); other lines are skipped. -/
def readLines : List (List Char) → Option (String × String) → RelationGraph →
    Option RelationGraph
  | [], _, g => some g
  | l :: rest, vertex, g =>
    if l.head? = some '[' ∧ l.getLast? = some ']' then
      let stripped := (l.drop 1).dropLast
      match splitSepF [':'] (stripped.length + 1) stripped with
      | ns :: id :: _ => readLines rest (some (String.mk ns, String.mk id)) g
      | _ => none
    else if '=' ∈ l ∧ '[' ∈ l ∧ ']' ∈ l then
      match vertex with
      | none => readLines rest vertex g
      | some (dns, did) =>
        let epos := firstIdx '=' l
        let astart := firstIdx '[' l
        let astop := firstIdx ']' l
        if astart + 1 > astop then none
        else
          let rel := String.mk (trim (l.take epos))
          let content := trim ((l.drop (astart + 1)).take (astop - (astart + 1)))
          match insertTokens dns did rel g
              (splitSepF [',', ' '] (content.length + 1) content) with
          | some g1 => readLines rest vertex g1
          | none => none
    else readLines rest vertex g

/-- Read a savefile (mirrors `read_savefile`); `none` models a panic. -/
def readSavefile (lines : List String) : Option RelationGraph :=
  readLines (lines.map String.data) none emptyGraph

/-! Concrete graphs used in counterexamples and witnesses. -/

/-- Graph with the single relation `(user, alice) → (application, foo, read)`. -/
def exG1 : RelationGraph :=
  emptyGraph.insert (.obj ⟨"user", "alice"⟩) ⟨"application", "foo", "read"⟩

/-- Graph with the single relation
`(group, *, member) → (app, foo, admin)` (wildcard set source). -/
def exG2 : RelationGraph :=
  emptyGraph.insert (.set ⟨"group", "*", "member"⟩) ⟨"app", "foo", "admin"⟩

/-- Graph where `(u, al)` is in two groups that both grant `(a, foo, ad)`. -/
def exG4 : RelationGraph :=
  (((emptyGraph.insert (.obj ⟨"u", "al"⟩) ⟨"g", "g1", "m"⟩).insert
    (.obj ⟨"u", "al"⟩) ⟨"g", "g2", "m"⟩).insert
    (.set ⟨"g", "g1", "m"⟩) ⟨"a", "foo", "ad"⟩).insert
    (.set ⟨"g", "g2", "m"⟩) ⟨"a", "foo", "ad"⟩

/-- The graph of spec scenario S5: alice is a member of `group#admins`, and
members of `group#admins` are admins of `application foo`. -/
def exG5 : RelationGraph :=
  (emptyGraph.insert (.obj ⟨"user", "alice"⟩) ⟨"group", "admins", "member"⟩).insert
    (.set ⟨"group", "admins", "member"⟩) ⟨"application", "foo", "admin"⟩

/-- Graph with the single relation `(user, alice) → (application, *, read)`
(wildcard destination). -/
def exG8 : RelationGraph :=
  emptyGraph.insert (.obj ⟨"user", "alice"⟩) ⟨"application", "*", "read"⟩

/-! Claim C1 — the savefile round-trip fails. The writer emits a
`read = [  ]` line for the destination-wildcard vertex (all of its in-edges
are filtered out), and the reader splits that empty bracket into one empty
token, which parses as `self` and inserts a spurious relation. The reloaded
graph then contains the object wildcard `(application, *)`, so the check
below flips from `false` to `true`. -/

/-- Claim C1: the graph reloaded from `write_savefile` of the one-relation
graph `exG1` answers a `check` query differently from `exG1`: reachability
from the unknown object `(application, bob)` to `(application, foo, read)`
is `false` in `exG1` but `true` after the round-trip. -/
theorem savefile_roundtrip_code_bug :
    exG1.check (.obj ⟨"application", "bob"⟩) ⟨"application", "foo", "read"⟩
      none = false ∧
    (readSavefile (writeSavefile exG1)).map
      (fun g => g.check (.obj ⟨"application", "bob"⟩)
        ⟨"application", "foo", "read"⟩ none) = some true := by
  constructor
  · decide
  · decide

/-! Claim C9 — `read_savefile` is not total: a header line without `:`
makes the second `unwrap` panic, and a relation line whose `]` precedes its
`[` makes the byte-range slice panic. -/

/-- Claim C9: `read_savefile` panics (modelled as `none`) on the header line
`[foo]` with no `:` separator, and on a relation line whose `]` precedes
its `[` inside a block. -/
theorem read_savefile_panics :
    readSavefile ["[foo]"] = none ∧
    readSavefile ["[a:b]", "r = ] x ["] = none := by
  constructor
  · decide
  · decide

/-! Claim C10 — a limit of zero always yields `false`: the guard
`distance > limit` fires at the first level, whose distance is 1. -/

/-- With limit zero the BFS loop returns `false` whatever its state, since
the first level already has distance at least 1. -/
lemma checkLoop_limit_zero (g : RelationGraph) (dst : Set) :
    ∀ fuel distance frontier visited, 0 < distance →
      checkLoop g dst (some 0) fuel distance frontier visited = false := by
  intro fuel distance frontier visited h
  cases fuel with
  | zero => simp [checkLoop]
  | succ n =>
    by_cases hf : frontier = []
    · simp [checkLoop, hf]
    · simp [checkLoop, hf, limitExceeded, h]

/-- Claim C10: `check` with `Some 0` as the depth limit returns `false` for
every graph, source and destination, even when a direct edge exists. -/
theorem check_limit_zero (g : RelationGraph) (src : ObjectOrSet) (dst : Set) :
    g.check src dst (some 0) = false := by
  unfold RelationGraph.check
  cases h : resolveSrc g src with
  | none => rfl
  | some sv => exact checkLoop_limit_zero g dst _ 1 _ _ (by decide)

/-! Claim C2 — source-resolution fallback. The code falls back to the
object wildcard `(namespace, "*")` with no relation, not to the
same-kind wildcard `(namespace, "*", relation)` the spec describes. -/

/-- Modelled from the spec: `check` whose source fallback re-resolves
against `(src.namespace, WILDCARD, src.relation)` — the same-namespace
wildcard of the same kind, keeping the relation component — as the
specification words it. Used only to compare against the code's
`RelationGraph.check`. -/
def checkSpecFallback (g : RelationGraph) (src : ObjectOrSet) (dst : Set)
    (limit : Option Nat) : Bool :=
  match lookupVertex g src.vertexId with
  | some sv => checkLoop g dst limit (graphFuel g) 1 sv.edges_out []
  | none =>
    match lookupVertex g ⟨src.nsOf, WILDCARD_ID, src.relationOf⟩ with
    | some sv => checkLoop g dst limit (graphFuel g) 1 sv.edges_out []
    | none => false

/-- Claim C2 (counterexample): in the graph holding only
`(group, *, member) → (app, foo, admin)`, for the absent source set
`(group, admins, member)` the spec's same-kind fallback finds the wildcard
set vertex and answers `true`, but the code's `check` answers `false`
(it falls back to the object wildcard `(group, *)`, which does not exist). -/
theorem check_fallback_counterexample :
    lookupVertex exG2 (ObjectOrSet.set ⟨"group", "admins", "member"⟩).vertexId
      = none ∧
    checkSpecFallback exG2 (.set ⟨"group", "admins", "member"⟩)
      ⟨"app", "foo", "admin"⟩ none = true ∧
    exG2.check (.set ⟨"group", "admins", "member"⟩)
      ⟨"app", "foo", "admin"⟩ none = false := by
  refine ⟨by decide, by decide, by decide⟩

/-- Claim C2 (amended): when no vertex exists for the exact source
identifier, `check` behaves exactly as a `check` whose source is the
object wildcard `(src.namespace, "*")` — the relation component of the
source is dropped, and the result is `false` when that object-wildcard
vertex is also absent. -/
theorem check_missing_src_object_wildcard (g : RelationGraph)
    (src : ObjectOrSet) (dst : Set) (limit : Option Nat)
    (h : lookupVertex g src.vertexId = none) :
    g.check src dst limit =
      g.check (.obj ⟨src.nsOf, WILDCARD_ID⟩) dst limit := by
  show (match resolveSrc g src with
    | none => false
    | some sv => checkLoop g dst limit (graphFuel g) 1 sv.edges_out []) = _
  show _ = (match resolveSrc g (.obj ⟨src.nsOf, WILDCARD_ID⟩) with
    | none => false
    | some sv => checkLoop g dst limit (graphFuel g) 1 sv.edges_out [])
  have h2 : resolveSrc g (.obj ⟨src.nsOf, WILDCARD_ID⟩) =
      lookupVertex g ⟨src.nsOf, WILDCARD_ID, none⟩ := by
    show (match lookupVertex g ⟨src.nsOf, WILDCARD_ID, none⟩ with
      | some v => some v
      | none => lookupVertex g ⟨src.nsOf, WILDCARD_ID, none⟩) = _
    cases hw : lookupVertex g ⟨src.nsOf, WILDCARD_ID, none⟩ <;> simp
  have h1 : resolveSrc g src = lookupVertex g ⟨src.nsOf, WILDCARD_ID, none⟩ := by
    show (match lookupVertex g src.vertexId with
      | some v => some v
      | none => lookupVertex g ⟨src.nsOf, WILDCARD_ID, none⟩) = _
    rw [h]
  rw [h1, h2]

/-- Witness for `check_missing_src_object_wildcard` at the concrete graph
`exG2` and source set `(group, admins, member)`. -/
theorem check_missing_src_object_wildcard_witness :
    lookupVertex exG2 (ObjectOrSet.set ⟨"group", "admins", "member"⟩).vertexId
      = none ∧
    exG2.check (.set ⟨"group", "admins", "member"⟩)
      ⟨"app", "foo", "admin"⟩ none =
      exG2.check (.obj ⟨"group", WILDCARD_ID⟩) ⟨"app", "foo", "admin"⟩ none :=
  ⟨by decide, check_missing_src_object_wildcard exG2
    (.set ⟨"group", "admins", "member"⟩) ⟨"app", "foo", "admin"⟩ none
    (by decide)⟩

/-! Claim C8 — self-loops. Inserting with a wildcard-id destination makes
`add_edge(dst_wildcard, dst)` link the wildcard vertex to itself. -/

/-- Claim C8 (counterexample): after the single call
`insert((user, alice), (application, *, read))` some vertex — namely the
wildcard set `(application, *, read)` — carries itself in its own
`edges_out`. -/
theorem insert_wildcard_self_loop :
    ∃ v ∈ exG8.verticies, v.id ∈ v.edges_out := by decide

/-! Claim C4 — expand duplicates. Objects are never marked visited, so an
object reachable through two distinct set parents is emitted once per
parent. -/

/-- Claim C4 (counterexample): with `(u, al)` a member of the two groups
`g#g1` and `g#g2`, both granting `(a, foo, ad)`, `expand((a, foo, ad))`
returns the object `(u, al)` twice. -/
theorem expand_duplicate_object :
    ((exG4.expand ⟨"a", "foo", "ad"⟩).map Prod.fst).count ⟨"u", "al"⟩ = 2 := by
  decide

/-! Claim C5 — expand paths. The accumulated path starts as `[start]`, so
every returned path has the destination (start) vertex as its first
element, contrary to the claim that the start vertex is excluded. -/

/-- Claim C5 (counterexample): on the scenario-S5 graph the single pair
returned by `expand((application, foo, admin))` carries the path
`[Set(application, foo, admin), Set(group, admins, member)]` — the
destination vertex included first — not `[Set(group, admins, member)]`. -/
theorem expand_path_counterexample :
    exG5.expand ⟨"application", "foo", "admin"⟩ ≠
      [(⟨"user", "alice"⟩, [⟨"group", "admins", "member"⟩])] ∧
    exG5.expand ⟨"application", "foo", "admin"⟩ =
      [(⟨"user", "alice"⟩,
        [⟨"application", "foo", "admin"⟩, ⟨"group", "admins", "member"⟩])] := by
  refine ⟨by decide, by decide⟩

/-! Claim C3 — soundness of the depth limit. -/

/-- Existence of a directed path of a given length along recorded
out-edges, unfolded from the first step. -/
def pathN (g : RelationGraph) : VertexId → Nat → VertexId → Prop
  | s, 0, u => s = u
  | s, d + 1, u => ∃ x, x ∈ outIds g s ∧ pathN g x d u

/-- Extend a path by one out-edge at its end. -/
lemma pathN_snoc {g : RelationGraph} {s x u : VertexId} :
    ∀ {d : Nat}, pathN g s d x → u ∈ outIds g x → pathN g s (d + 1) u := by
  intro d
  induction d generalizing s with
  | zero => intro hp hu; cases hp; exact ⟨u, hu, rfl⟩
  | succ d ih =>
    intro hp hu
    obtain ⟨y, hy, hp2⟩ := hp
    exact ⟨y, hy, ih hp2 hu⟩

/-- If a BFS level reports a match, some frontier vertex matches the
destination. -/
lemma checkLevel_found {g : RelationGraph} {dst : Set} {d : Nat} :
    ∀ frontier visited,
      (checkLevel g dst d frontier visited).1 = true →
      ∃ u ∈ frontier, dstMatch dst u = true := by
  intro frontier
  induction frontier with
  | nil => intro visited h; simp [checkLevel] at h
  | cons n rest ih =>
    intro visited h
    by_cases hskip : d > 1 ∧ n ∈ visited
    · rw [checkLevel, if_pos hskip] at h
      obtain ⟨u, hu, hm⟩ := ih visited h
      exact ⟨u, List.mem_cons_of_mem n hu, hm⟩
    · rw [checkLevel, if_neg hskip] at h
      by_cases hm : dstMatch dst n = true
      · exact ⟨n, List.mem_cons_self n rest, hm⟩
      · rw [if_neg (by simpa using hm)] at h
        simp only at h
        obtain ⟨u, hu, hm2⟩ := ih (visited ++ [n]) h
        exact ⟨u, List.mem_cons_of_mem n hu, hm2⟩

/-- Every vertex in the next frontier produced by a BFS level is an
out-neighbor of some vertex of the current frontier. -/
lemma checkLevel_next_sub {g : RelationGraph} {dst : Set} {d : Nat} :
    ∀ frontier visited x,
      x ∈ (checkLevel g dst d frontier visited).2.1 →
      ∃ u ∈ frontier, x ∈ outIds g u := by
  intro frontier
  induction frontier with
  | nil => intro visited x h; simp [checkLevel] at h
  | cons n rest ih =>
    intro visited x h
    by_cases hskip : d > 1 ∧ n ∈ visited
    · rw [checkLevel, if_pos hskip] at h
      obtain ⟨u, hu, hx⟩ := ih visited x h
      exact ⟨u, List.mem_cons_of_mem n hu, hx⟩
    · rw [checkLevel, if_neg hskip] at h
      by_cases hm : dstMatch dst n = true
      · rw [if_pos (by simpa using hm)] at h
        simp at h
      · rw [if_neg (by simpa using hm)] at h
        simp only at h
        rcases List.mem_append.1 h with hx | hx
        · exact ⟨n, List.mem_cons_self n rest, hx⟩
        · obtain ⟨u, hu, hx2⟩ := ih (visited ++ [n]) x hx
          exact ⟨u, List.mem_cons_of_mem n hu, hx2⟩

/-- Soundness of the limited BFS loop: a `true` answer yields a matching
vertex reachable from `s` within the limit, provided every frontier vertex
lies at path-distance `distance` from `s`. -/
lemma checkLoop_sound {g : RelationGraph} {dst : Set} {k : Nat} {s : VertexId} :
    ∀ fuel distance frontier visited,
      (∀ u ∈ frontier, pathN g s distance u) →
      checkLoop g dst (some k) fuel distance frontier visited = true →
      ∃ d m, distance ≤ d ∧ d ≤ k ∧ pathN g s d m ∧ dstMatch dst m = true := by
  intro fuel
  induction fuel with
  | zero => intro distance frontier visited _ h; simp [checkLoop] at h
  | succ fuel ih =>
    intro distance frontier visited hfr h
    by_cases hf : frontier = []
    · rw [checkLoop, if_pos hf] at h; simp at h
    · rw [checkLoop, if_neg hf] at h
      by_cases hg : limitExceeded (some k) distance
      · rw [if_pos hg] at h; simp at h
      · rw [if_neg hg] at h
        have hk : distance ≤ k := Nat.le_of_not_lt hg
        simp only at h
        by_cases hfound : (checkLevel g dst distance frontier visited).1 = true
        · obtain ⟨u, hu, hm⟩ := checkLevel_found frontier visited hfound
          exact ⟨distance, u, Nat.le_refl _, hk, hfr u hu, hm⟩
        · rw [if_neg (by simpa using hfound)] at h
          have hnext : ∀ x ∈ (checkLevel g dst distance frontier visited).2.1,
              pathN g s (distance + 1) x := by
            intro x hx
            obtain ⟨u, hu, hxu⟩ := checkLevel_next_sub frontier visited x hx
            exact pathN_snoc (hfr u hu) hxu
          obtain ⟨d, m, hd1, hd2, hp, hm⟩ := ih (distance + 1) _ _ hnext h
          exact ⟨d, m, Nat.le_of_succ_le hd1, hd2, hp, hm⟩

/-- A limited BFS that answers `true` also answers `true` without the
limit (same fuel, same state). -/
lemma checkLoop_none_of_some {g : RelationGraph} {dst : Set} {k : Nat} :
    ∀ fuel distance frontier visited,
      checkLoop g dst (some k) fuel distance frontier visited = true →
      checkLoop g dst none fuel distance frontier visited = true := by
  intro fuel
  induction fuel with
  | zero => intro distance frontier visited h; simp [checkLoop] at h
  | succ fuel ih =>
    intro distance frontier visited h
    by_cases hf : frontier = []
    · rw [checkLoop, if_pos hf] at h; simp at h
    · rw [checkLoop, if_neg hf] at h
      rw [checkLoop, if_neg hf]
      by_cases hg : limitExceeded (some k) distance
      · rw [if_pos hg] at h; simp at h
      · rw [if_neg hg] at h
        rw [if_neg (by simp [limitExceeded])]
        simp only at h ⊢
        by_cases hfound : (checkLevel g dst distance frontier visited).1 = true
        · rw [if_pos hfound]
        · rw [if_neg (by simpa using hfound)] at h ⊢
          exact ih _ _ _ h

/-- A successfully resolved source vertex is stored under its own id. -/
lemma lookup_of_resolveSrc {g : RelationGraph} {src : ObjectOrSet}
    {sv : Vertex} (h : resolveSrc g src = some sv) :
    lookupVertex g sv.id = some sv := by
  unfold resolveSrc at h
  have keyed : ∀ key : VertexId, lookupVertex g key = some sv →
      lookupVertex g sv.id = some sv := by
    intro key hk
    have hid : sv.id = key := by
      have := List.find?_some hk
      simpa using this
    rwa [hid]
  cases hsrc : lookupVertex g src.vertexId with
  | some v =>
    rw [hsrc] at h
    have h2 : some v = some sv := h
    cases h2
    exact keyed _ hsrc
  | none =>
    rw [hsrc] at h
    exact keyed _ h

/-- Claim C3: the depth limit is sound — a `check` that succeeds with the
positive limit `k` also succeeds without a limit, and a path of length at
most `k` (and at least 1) leads from the resolved source vertex to a vertex
satisfying the destination-match predicate. -/
theorem check_limit_sound (g : RelationGraph) (src : ObjectOrSet) (dst : Set)
    (k : Nat) (hk : 0 < k) (h : g.check src dst (some k) = true) :
    g.check src dst none = true ∧
    ∃ sv, resolveSrc g src = some sv ∧
      ∃ d m, 1 ≤ d ∧ d ≤ k ∧ pathN g sv.id d m ∧ dstMatch dst m = true := by
  unfold RelationGraph.check at h ⊢
  cases hr : resolveSrc g src with
  | none => rw [hr] at h; simp at h
  | some sv =>
    rw [hr] at h
    constructor
    · exact checkLoop_none_of_some _ _ _ _ h
    · refine ⟨sv, rfl, ?_⟩
      have hfr : ∀ u ∈ sv.edges_out, pathN g sv.id 1 u := by
        intro u hu
        refine ⟨u, ?_, rfl⟩
        unfold outIds
        rw [lookup_of_resolveSrc hr]
        exact hu
      exact checkLoop_sound _ _ _ _ hfr h

/-- Witness for `check_limit_sound`: on the one-relation graph `exG1` the
direct edge is found with limit 1, hence also without a limit. -/
theorem check_limit_sound_witness :
    exG1.check (.obj ⟨"user", "alice"⟩) ⟨"application", "foo", "read"⟩
      (some 1) = true ∧
    exG1.check (.obj ⟨"user", "alice"⟩) ⟨"application", "foo", "read"⟩
      none = true :=
  ⟨by decide, (check_limit_sound exG1 (.obj ⟨"user", "alice"⟩)
    ⟨"application", "foo", "read"⟩ 1 (by decide) (by decide)).1⟩

/-! Completeness of the unlimited BFS: a path to a matching vertex forces a
`true` answer. Used for claim C6. -/

/-- A BFS level finds a match sitting unvisited in its frontier. -/
lemma checkLevel_finds {g : RelationGraph} {dst : Set} {d : Nat} :
    ∀ frontier visited u, u ∈ frontier → u ∉ visited →
      dstMatch dst u = true →
      (checkLevel g dst d frontier visited).1 = true := by
  intro frontier
  induction frontier with
  | nil => intro visited u hu; simp at hu
  | cons n rest ih =>
    intro visited u hu hnv hm
    by_cases hskip : d > 1 ∧ n ∈ visited
    · rw [checkLevel, if_pos hskip]
      have hne : u ≠ n := fun he => hnv (he ▸ hskip.2)
      have hu2 : u ∈ rest := by
        rcases List.mem_cons.1 hu with h | h
        · exact absurd h hne
        · exact h
      exact ih visited u hu2 hnv hm
    · rw [checkLevel, if_neg hskip]
      by_cases hmn : dstMatch dst n = true
      · rw [if_pos hmn]
      · rw [if_neg (by simpa using hmn)]
        simp only
        have hne : u ≠ n := fun he => hmn (he ▸ hm)
        have hu2 : u ∈ rest := by
          rcases List.mem_cons.1 hu with h | h
          · exact absurd h hne
          · exact h
        have hnv2 : u ∉ visited ++ [n] := by
          intro hin
          rcases List.mem_append.1 hin with h | h
          · exact hnv h
          · exact hne (by simpa using h)
        exact ih (visited ++ [n]) u hu2 hnv2 hm

/-- The visited set only grows across a BFS level. -/
lemma checkLevel_visited_mono {g : RelationGraph} {dst : Set} {d : Nat} :
    ∀ frontier visited, ∀ y ∈ visited,
      y ∈ (checkLevel g dst d frontier visited).2.2 := by
  intro frontier
  induction frontier with
  | nil => intro visited y hy; simpa [checkLevel] using hy
  | cons n rest ih =>
    intro visited y hy
    by_cases hskip : d > 1 ∧ n ∈ visited
    · rw [checkLevel, if_pos hskip]; exact ih visited y hy
    · rw [checkLevel, if_neg hskip]
      by_cases hmn : dstMatch dst n = true
      · rw [if_pos hmn]; exact hy
      · rw [if_neg (by simpa using hmn)]
        simp only
        exact ih (visited ++ [n]) y (List.mem_append_left _ hy)

/-- After a level that found no match, every frontier vertex is visited. -/
lemma checkLevel_frontier_covered {g : RelationGraph} {dst : Set} {d : Nat} :
    ∀ frontier visited,
      (checkLevel g dst d frontier visited).1 = false →
      ∀ y ∈ frontier, y ∈ (checkLevel g dst d frontier visited).2.2 := by
  intro frontier
  induction frontier with
  | nil => intro visited _ y hy; simp at hy
  | cons n rest ih =>
    intro visited hfalse y hy
    by_cases hskip : d > 1 ∧ n ∈ visited
    · rw [checkLevel, if_pos hskip] at hfalse ⊢
      rcases List.mem_cons.1 hy with h | h
      · subst h
        exact checkLevel_visited_mono rest visited y hskip.2
      · exact ih visited hfalse y h
    · rw [checkLevel, if_neg hskip] at hfalse ⊢
      by_cases hmn : dstMatch dst n = true
      · rw [if_pos hmn] at hfalse; simp at hfalse
      · rw [if_neg (by simpa using hmn)] at hfalse ⊢
        simp only at hfalse ⊢
        rcases List.mem_cons.1 hy with h | h
        · subst h
          exact checkLevel_visited_mono rest (visited ++ [y]) y
            (List.mem_append_right _ (by simp))
        · exact ih (visited ++ [n]) hfalse y h

/-- Every vertex visited during a BFS level was either visited before or is
a non-matching vertex whose out-neighbors all joined the next frontier. -/
lemma checkLevel_visited_inv {g : RelationGraph} {dst : Set} {d : Nat} :
    ∀ frontier visited v,
      v ∈ (checkLevel g dst d frontier visited).2.2 →
      v ∈ visited ∨ (dstMatch dst v = false ∧
        ∀ x ∈ outIds g v, x ∈ (checkLevel g dst d frontier visited).2.1) := by
  intro frontier
  induction frontier with
  | nil => intro visited v hv; simp [checkLevel] at hv; exact Or.inl hv
  | cons n rest ih =>
    intro visited v hv
    by_cases hskip : d > 1 ∧ n ∈ visited
    · rw [checkLevel, if_pos hskip] at hv ⊢
      exact ih visited v hv
    · rw [checkLevel, if_neg hskip] at hv ⊢
      by_cases hmn : dstMatch dst n = true
      · rw [if_pos hmn] at hv ⊢
        exact Or.inl hv
      · rw [if_neg (by simpa using hmn)] at hv ⊢
        simp only at hv ⊢
        rcases ih (visited ++ [n]) v hv with h | ⟨hnm, hsub⟩
        · rcases List.mem_append.1 h with h2 | h2
          · exact Or.inl h2
          · have he : v = n := by simpa using h2
            subst he
            exact Or.inr ⟨by simpa using hmn,
              fun x hx => List.mem_append_left _ hx⟩
        · exact Or.inr ⟨hnm, fun x hx => List.mem_append_right _ (hsub x hx)⟩

/-- Completeness of the unlimited BFS loop: if some vertex of the frontier
or of the visited set has a path of length `n` to a matching vertex, and
the visited set satisfies the loop invariant (visited vertices do not match
and their out-neighbors are all scheduled or visited), then the loop
answers `true`, given fuel beyond `n`. -/
lemma checkLoop_complete {g : RelationGraph} {dst : Set} {m : VertexId}
    (hm : dstMatch dst m = true) :
    ∀ n fuel distance frontier visited,
      n + 1 ≤ fuel →
      (∀ v ∈ visited, dstMatch dst v = false ∧
        ∀ x ∈ outIds g v, x ∈ frontier ∨ x ∈ visited) →
      ∀ u, (u ∈ frontier ∨ u ∈ visited) → pathN g u n m →
      checkLoop g dst none fuel distance frontier visited = true := by
  intro n
  induction n with
  | zero =>
    intro fuel distance frontier visited hfuel hinv u hu hp
    have he : u = m := hp
    subst he
    have hnv : u ∉ visited := by
      intro hv
      have := (hinv u hv).1
      rw [hm] at this
      exact Bool.true_eq_false.mp this
    have hufr : u ∈ frontier := by
      rcases hu with h | h
      · exact h
      · exact absurd h hnv
    cases fuel with
    | zero => omega
    | succ fuel =>
      have hne : frontier ≠ [] := by
        intro hemp; rw [hemp] at hufr; simp at hufr
      rw [checkLoop, if_neg hne, if_neg (by simp [limitExceeded])]
      simp only
      rw [if_pos (checkLevel_finds frontier visited u hufr hnv hm)]
  | succ n ih =>
    intro fuel distance frontier visited hfuel hinv u hu hp
    obtain ⟨x, hx, hp2⟩ := hp
    rcases hu with hu | hu
    · cases fuel with
      | zero => omega
      | succ fuel =>
        have hne : frontier ≠ [] := by
          intro hemp; rw [hemp] at hu; simp at hu
        rw [checkLoop, if_neg hne, if_neg (by simp [limitExceeded])]
        simp only
        by_cases hfound : (checkLevel g dst distance frontier visited).1 = true
        · rw [if_pos hfound]
        · rw [if_neg (by simpa using hfound)]
          have hfalse : (checkLevel g dst distance frontier visited).1 = false := by
            simpa using hfound
          have hfcov := checkLevel_frontier_covered frontier visited hfalse
          have hvmono : ∀ y ∈ visited,
              y ∈ (checkLevel g dst distance frontier visited).2.2 :=
            checkLevel_visited_mono frontier visited
          have hinv2 : ∀ v ∈ (checkLevel g dst distance frontier visited).2.2,
              dstMatch dst v = false ∧
              ∀ y ∈ outIds g v,
                y ∈ (checkLevel g dst distance frontier visited).2.1 ∨
                y ∈ (checkLevel g dst distance frontier visited).2.2 := by
            intro v hv
            rcases checkLevel_visited_inv frontier visited v hv with
              hold | ⟨hnm, hsub⟩
            · refine ⟨(hinv v hold).1, ?_⟩
              intro y hy
              rcases (hinv v hold).2 y hy with h | h
              · exact Or.inr (hfcov y h)
              · exact Or.inr (hvmono y h)
            · exact ⟨hnm, fun y hy => Or.inl (hsub y hy)⟩
          have hu2 : u ∈ (checkLevel g dst distance frontier visited).2.2 :=
            hfcov u hu
          have hx2 := (hinv2 u hu2).2 x hx
          exact ih fuel (distance + 1) _ _ (by omega) hinv2 x hx2 hp2
    · have hx2 : x ∈ frontier ∨ x ∈ visited := (hinv u hu).2 x hx
      exact ih fuel distance frontier visited (by omega) hinv x hx2 hp2

/-! Wellformedness of a graph state. All graphs reachable from the empty
graph through `insert` and `remove` satisfy these properties (symmetry is
claim C7); `expand`-related claims assume them. -/

/-- Some stored vertex carries this id. -/
def hasId (g : RelationGraph) (x : VertexId) : Prop :=
  ∃ w ∈ g.verticies, w.id = x

/-- Stored vertex ids are pairwise distinct (store-as-set). -/
def NodupIds (g : RelationGraph) : Prop :=
  (g.verticies.map Vertex.id).Nodup

/-- Every recorded edge endpoint is a stored vertex. -/
def Closed (g : RelationGraph) : Prop :=
  ∀ v ∈ g.verticies,
    (∀ x ∈ v.edges_out, hasId g x) ∧ (∀ x ∈ v.edges_in, hasId g x)

/-- Edge symmetry: `w ∈ u.edges_out` iff `u ∈ w.edges_in`. -/
def Symm (g : RelationGraph) : Prop :=
  ∀ u ∈ g.verticies, ∀ w ∈ g.verticies,
    (w.id ∈ u.edges_out ↔ u.id ∈ w.edges_in)

/-- Each in-edge set is duplicate free (hash-set semantics). -/
def InNodup (g : RelationGraph) : Prop :=
  ∀ v ∈ g.verticies, v.edges_in.Nodup

/-- Wellformed graph state. -/
def Wellformed (g : RelationGraph) : Prop :=
  NodupIds g ∧ Closed g ∧ Symm g ∧ InNodup g

instance (g : RelationGraph) (x : VertexId) : Decidable (hasId g x) :=
  List.decidableBEx _ g.verticies

instance (g : RelationGraph) : Decidable (NodupIds g) :=
  List.nodupDecidable _

instance (g : RelationGraph) : Decidable (Closed g) :=
  List.decidableBAll _ g.verticies

instance (g : RelationGraph) : Decidable (Symm g) :=
  List.decidableBAll _ g.verticies

instance (g : RelationGraph) : Decidable (InNodup g) :=
  List.decidableBAll _ g.verticies

instance (g : RelationGraph) : Decidable (Wellformed g) :=
  instDecidableAnd

/-- With duplicate-free ids, looking up a stored vertex's id finds it. -/
lemma find_by_id : ∀ {l : List Vertex}, (l.map Vertex.id).Nodup →
    ∀ {v : Vertex}, v ∈ l → l.find? (fun w => w.id = v.id) = some v := by
  intro l
  induction l with
  | nil => intro _ v hv; simp at hv
  | cons a rest ih =>
    intro hnd v hv
    rcases List.mem_cons.1 hv with he | hm
    · subst he
      exact List.find?_cons_of_pos _ (by simp)
    · by_cases hid : a.id = v.id
      · exfalso
        have : v.id ∈ rest.map Vertex.id := List.mem_map_of_mem _ hm
        have hna : a.id ∉ rest.map Vertex.id := (List.nodup_cons.1 (by simpa using hnd)).1
        exact hna (hid ▸ this)
      · rw [List.find?_cons_of_neg _ (by simpa using hid)]
        exact ih (List.nodup_cons.1 (by simpa using hnd)).2 hm

/-- Specialization of `find_by_id` to `lookupVertex`. -/
lemma lookup_own_id {g : RelationGraph} (hnd : NodupIds g) {v : Vertex}
    (hv : v ∈ g.verticies) : lookupVertex g v.id = some v :=
  find_by_id hnd hv

/-- A successful lookup returns a stored vertex with the requested id. -/
lemma mem_of_lookup {g : RelationGraph} {i : VertexId} {v : Vertex}
    (h : lookupVertex g i = some v) : v ∈ g.verticies ∧ v.id = i :=
  ⟨List.mem_of_find?_eq_some h, by simpa using List.find?_some h⟩

/-- In a wellformed graph an in-edge can be flipped into an out-edge. -/
lemma mem_out_of_mem_in {g : RelationGraph} (hwf : Wellformed g)
    {n v : VertexId} (h : n ∈ inIds g v) : v ∈ outIds g n := by
  obtain ⟨hnd, hcl, hsym, _⟩ := hwf
  unfold inIds at h
  cases hl : lookupVertex g v with
  | none => rw [hl] at h; simp at h
  | some vx =>
    rw [hl] at h
    obtain ⟨hvmem, hvid⟩ := mem_of_lookup hl
    obtain ⟨nx, hnmem, hnid⟩ := (hcl vx hvmem).2 n h
    have hout : vx.id ∈ nx.edges_out := by
      have := (hsym nx hnmem vx hvmem).2
      exact this (hnid ▸ h)
    unfold outIds
    have : lookupVertex g n = some nx := by
      have := lookup_own_id hnd hnmem
      rwa [hnid] at this
    rw [this]
    rwa [hvid] at hout

/-! The reverse-chain predicate tracked by `expand` invariants. -/

/-- The path `p = [v₁, …, vₖ]` is a chain of in-edges from the start vertex
`v₁` (each `vᵢ₊₁ ∈ inIds vᵢ`) ending with `n ∈ inIds vₖ`. -/
def linked (g : RelationGraph) : List VertexId → VertexId → Prop
  | [], _ => False
  | v :: rest, n =>
    match rest with
    | [] => n ∈ inIds g v
    | w :: _ => w ∈ inIds g v ∧ linked g rest n

/-- Extend a chain by one in-edge. -/
lemma linked_snoc {g : RelationGraph} {u n : VertexId} :
    ∀ {p : List VertexId}, linked g p n → u ∈ inIds g n →
      linked g (p ++ [n]) u := by
  intro p
  induction p with
  | nil => intro h; exact absurd h (by simp [linked])
  | cons v rest ih =>
    intro h hu
    cases rest with
    | nil => exact ⟨h, hu⟩
    | cons w rest2 => exact ⟨h.1, ih h.2 hu⟩

/-- In a wellformed graph a reverse chain yields a forward path from `n`
back to the chain's head, of length the chain's length. -/
lemma linked_pathN {g : RelationGraph} (hwf : Wellformed g) :
    ∀ {p : List VertexId} {n h : VertexId}, linked g p n →
      p.head? = some h → pathN g n p.length h := by
  intro p
  induction p with
  | nil => intro n h hl; exact absurd hl (by simp [linked])
  | cons v rest ih =>
    intro n h hl hh
    have hv : v = h := by simpa using hh
    subst hv
    cases rest with
    | nil =>
      exact ⟨v, mem_out_of_mem_in hwf hl, rfl⟩
    | cons w rest2 =>
      have hp : pathN g n (w :: rest2).length w := ih hl.2 rfl
      have hvout : v ∈ outIds g w := mem_out_of_mem_in hwf hl.1
      exact pathN_snoc hp hvout

/-- Key separating `expand` queue entries: the vertex and its path's last
element (its parent in the traversal). -/
def entryKey (e : VertexId × List VertexId) : VertexId × Option VertexId :=
  (e.1, e.2.getLast?)

/-- Invariant of the `expand` loop state. -/
structure ExpInv (g : RelationGraph) (startId : VertexId)
    (queue : List (VertexId × List VertexId)) (visited : List VertexId)
    (acc : List (VertexId × List VertexId)) : Prop where
  accObj : ∀ e ∈ acc, (Prod.fst e).relation = none
  linkedAll : ∀ e ∈ acc ++ queue, linked g e.2 e.1
  headsAll : ∀ e ∈ acc ++ queue, e.2.head? = some startId
  nodupPath : ∀ e ∈ acc ++ queue, e.2.Nodup
  pathVisited : ∀ e ∈ acc ++ queue, ∀ x ∈ e.2, x ∈ visited
  pathSet : ∀ e ∈ acc ++ queue, ∀ x ∈ e.2, x.relation ≠ none
  storeEntry : ∀ e ∈ acc ++ queue, hasId g e.1
  storeVisited : ∀ x ∈ visited, hasId g x
  lastVisited : ∀ e ∈ acc ++ queue, ∃ u, e.2.getLast? = some u ∧ u ∈ visited
  keysNodup : ((acc ++ queue).map entryKey).Nodup

/-- In-edge lists are duplicate free in a wellformed graph. -/
lemma inIds_nodup {g : RelationGraph} (hin : InNodup g) (n : VertexId) :
    (inIds g n).Nodup := by
  unfold inIds
  cases h : lookupVertex g n with
  | none => simp
  | some v => exact hin v (mem_of_lookup h).1

/-- Membership transfer when the queue head is dropped. -/
lemma mem_queue_drop {α : Type} {a : α} {acc rest : List α} :
    ∀ e ∈ acc ++ rest, e ∈ acc ++ a :: rest := by
  intro e he
  rcases List.mem_append.1 he with h | h
  · exact List.mem_append_left _ h
  · exact List.mem_append_right _ (List.mem_cons_of_mem _ h)

/-- The invariant survives skipping a visited queue head. -/
lemma ExpInv.drop_head {g : RelationGraph} {startId n : VertexId}
    {p : List VertexId} {rest : List (VertexId × List VertexId)}
    {visited : List VertexId} {acc : List (VertexId × List VertexId)}
    (hinv : ExpInv g startId ((n, p) :: rest) visited acc) :
    ExpInv g startId rest visited acc := by
  have hsub : (acc ++ rest).Sublist (acc ++ (n, p) :: rest) :=
    List.Sublist.append_left (List.sublist_cons_self _ _) _
  exact
    { accObj := hinv.accObj
      linkedAll := fun e he => hinv.linkedAll e (mem_queue_drop e he)
      headsAll := fun e he => hinv.headsAll e (mem_queue_drop e he)
      nodupPath := fun e he => hinv.nodupPath e (mem_queue_drop e he)
      pathVisited := fun e he => hinv.pathVisited e (mem_queue_drop e he)
      pathSet := fun e he => hinv.pathSet e (mem_queue_drop e he)
      storeEntry := fun e he => hinv.storeEntry e (mem_queue_drop e he)
      storeVisited := hinv.storeVisited
      lastVisited := fun e he => hinv.lastVisited e (mem_queue_drop e he)
      keysNodup := List.Nodup.sublist (hsub.map entryKey) hinv.keysNodup }

/-- The invariant survives emitting an object head into the accumulator. -/
lemma ExpInv.emit {g : RelationGraph} {startId n : VertexId}
    {p : List VertexId} {rest : List (VertexId × List VertexId)}
    {visited : List VertexId} {acc : List (VertexId × List VertexId)}
    (hinv : ExpInv g startId ((n, p) :: rest) visited acc)
    (hrel : n.relation = none) :
    ExpInv g startId rest visited (acc ++ [(n, p)]) := by
  have heq : (acc ++ [(n, p)]) ++ rest = acc ++ (n, p) :: rest := by simp
  have hmem : ∀ e ∈ (acc ++ [(n, p)]) ++ rest, e ∈ acc ++ (n, p) :: rest :=
    fun e he => heq ▸ he
  exact
    { accObj := by
        intro e he
        rcases List.mem_append.1 he with h | h
        · exact hinv.accObj e h
        · have : e = (n, p) := by simpa using h
          rw [this]; exact hrel
      linkedAll := fun e he => hinv.linkedAll e (hmem e he)
      headsAll := fun e he => hinv.headsAll e (hmem e he)
      nodupPath := fun e he => hinv.nodupPath e (hmem e he)
      pathVisited := fun e he => hinv.pathVisited e (hmem e he)
      pathSet := fun e he => hinv.pathSet e (hmem e he)
      storeEntry := fun e he => hinv.storeEntry e (hmem e he)
      storeVisited := hinv.storeVisited
      lastVisited := fun e he => hinv.lastVisited e (hmem e he)
      keysNodup := by
        have hk := hinv.keysNodup
        rw [← heq] at hk
        exact hk }

/-- The invariant survives expanding an unvisited set head through its
in-edges. -/
lemma ExpInv.expand_step {g : RelationGraph} {startId n : VertexId}
    {p : List VertexId} {rest : List (VertexId × List VertexId)}
    {visited : List VertexId} {acc : List (VertexId × List VertexId)}
    (hcl : Closed g) (hin : InNodup g)
    (hinv : ExpInv g startId ((n, p) :: rest) visited acc)
    (hv : n ∉ visited) (hrel : n.relation ≠ none) :
    ExpInv g startId (rest ++ (inIds g n).map fun u => (u, p ++ [n]))
      (visited ++ [n]) acc := by
  have hhead : (n, p) ∈ acc ++ (n, p) :: rest :=
    List.mem_append_right _ (List.mem_cons_self _ _)
  have hlinked_np : linked g p n := hinv.linkedAll _ hhead
  have hp_head : p.head? = some startId := hinv.headsAll _ hhead
  have hp_ne : p ≠ [] := by
    intro he; rw [he] at hp_head; simp at hp_head
  have hhh : (p ++ [n]).head? = p.head? := by
    cases p with
    | nil => exact absurd rfl hp_ne
    | cons a l => rfl
  have hsplit : ∀ e ∈ acc ++ (rest ++ (inIds g n).map fun u => (u, p ++ [n])),
      e ∈ acc ++ rest ∨ ∃ u ∈ inIds g n, e = (u, p ++ [n]) := by
    intro e he
    rcases List.mem_append.1 he with h | h
    · exact Or.inl (List.mem_append_left _ h)
    · rcases List.mem_append.1 h with h2 | h2
      · exact Or.inl (List.mem_append_right _ h2)
      · obtain ⟨u, hu, he2⟩ := List.mem_map.1 h2
        exact Or.inr ⟨u, hu, he2.symm⟩
  have hstore_n : hasId g n := hinv.storeEntry _ hhead
  have hchild_store : ∀ u ∈ inIds g n, hasId g u := by
    intro u hu
    unfold inIds at hu
    cases hl : lookupVertex g n with
    | none => rw [hl] at hu; simp at hu
    | some nx =>
      rw [hl] at hu
      exact ((hcl nx (mem_of_lookup hl).1).2) u hu
  refine
    { accObj := hinv.accObj
      linkedAll := ?_
      headsAll := ?_
      nodupPath := ?_
      pathVisited := ?_
      pathSet := ?_
      storeEntry := ?_
      storeVisited := ?_
      lastVisited := ?_
      keysNodup := ?_ }
  · intro e he
    rcases hsplit e he with h | ⟨u, hu, he2⟩
    · exact hinv.linkedAll e (mem_queue_drop e h)
    · rw [he2]; exact linked_snoc hlinked_np hu
  · intro e he
    rcases hsplit e he with h | ⟨u, hu, he2⟩
    · exact hinv.headsAll e (mem_queue_drop e h)
    · rw [he2]; show (p ++ [n]).head? = some startId; rw [hhh]; exact hp_head
  · intro e he
    rcases hsplit e he with h | ⟨u, hu, he2⟩
    · exact hinv.nodupPath e (mem_queue_drop e h)
    · rw [he2]
      show (p ++ [n]).Nodup
      refine List.Nodup.append (hinv.nodupPath _ hhead) (List.nodup_singleton _) ?_
      intro a ha hb
      rw [List.mem_singleton] at hb
      subst hb
      exact hv (hinv.pathVisited _ hhead a ha)
  · intro e he
    rcases hsplit e he with h | ⟨u, hu, he2⟩
    · intro x hx
      exact List.mem_append_left _ (hinv.pathVisited e (mem_queue_drop e h) x hx)
    · rw [he2]
      intro x hx
      rcases List.mem_append.1 hx with h2 | h2
      · exact List.mem_append_left _ (hinv.pathVisited _ hhead x h2)
      · exact List.mem_append_right _ h2
  · intro e he
    rcases hsplit e he with h | ⟨u, hu, he2⟩
    · exact hinv.pathSet e (mem_queue_drop e h)
    · rw [he2]
      intro x hx
      rcases List.mem_append.1 hx with h2 | h2
      · exact hinv.pathSet _ hhead x h2
      · have : x = n := by simpa using h2
        rw [this]; exact hrel
  · intro e he
    rcases hsplit e he with h | ⟨u, hu, he2⟩
    · exact hinv.storeEntry e (mem_queue_drop e h)
    · rw [he2]; exact hchild_store u hu
  · intro x hx
    rcases List.mem_append.1 hx with h | h
    · exact hinv.storeVisited x h
    · have : x = n := by simpa using h
      rw [this]; exact hstore_n
  · intro e he
    rcases hsplit e he with h | ⟨u, hu, he2⟩
    · obtain ⟨u', hl, hu'⟩ := hinv.lastVisited e (mem_queue_drop e h)
      exact ⟨u', hl, List.mem_append_left _ hu'⟩
    · rw [he2]
      exact ⟨n, by simp, List.mem_append_right _ (by simp)⟩
  · rw [← List.append_assoc, List.map_append]
    have hchildkeys : (((inIds g n).map fun u => (u, p ++ [n])).map entryKey) =
        (inIds g n).map fun u => (u, some n) := by
      rw [List.map_map]
      refine List.map_congr_left ?_
      intro u _
      show (u, (p ++ [n]).getLast?) = (u, some n)
      rw [List.getLast?_concat]
    have hsub : ((acc ++ rest).map entryKey).Nodup :=
      List.Nodup.sublist
        ((List.Sublist.append_left (List.sublist_cons_self _ _) _).map entryKey)
        hinv.keysNodup
    rw [hchildkeys]
    refine List.Nodup.append hsub ?_ ?_
    · refine List.Nodup.map ?_ (inIds_nodup hin n)
      intro a b hab
      simpa using congrArg Prod.fst hab
    · intro k hk1 hk2
      obtain ⟨e, he, hke⟩ := List.mem_map.1 hk1
      obtain ⟨u, hu, hku⟩ := List.mem_map.1 hk2
      obtain ⟨u', hl, hu'⟩ := hinv.lastVisited e (mem_queue_drop e he)
      have h1 : k.2 = some u' := by rw [← hke]; exact hl
      have h2 : k.2 = some n := by rw [← hku]
      rw [h1] at h2
      have : u' = n := by simpa using h2
      exact hv (this ▸ hu')

/-- Properties of every pair produced by the `expand` loop, plus
duplicate-freedom of the produced (vertex, parent) keys. -/
lemma expandLoop_props {g : RelationGraph} (hcl : Closed g) (hin : InNodup g)
    {startId : VertexId} :
    ∀ fuel queue visited acc, ExpInv g startId queue visited acc →
      (∀ e ∈ expandLoop g fuel queue visited acc,
        (Prod.fst e).relation = none ∧ linked g e.2 e.1 ∧
        e.2.head? = some startId ∧ e.2.Nodup ∧
        (∀ x ∈ e.2, hasId g x) ∧ (∀ x ∈ e.2, x.relation ≠ none) ∧
        hasId g e.1) ∧
      ((expandLoop g fuel queue visited acc).map entryKey).Nodup := by
  intro fuel
  induction fuel with
  | zero =>
    intro queue visited acc hinv
    rw [expandLoop]
    constructor
    · intro e he
      have hea : e ∈ acc ++ queue := List.mem_append_left _ he
      exact ⟨hinv.accObj e he, hinv.linkedAll e hea, hinv.headsAll e hea,
        hinv.nodupPath e hea,
        fun x hx => hinv.storeVisited x (hinv.pathVisited e hea x hx),
        hinv.pathSet e hea, hinv.storeEntry e hea⟩
    · have hk := hinv.keysNodup
      rw [List.map_append] at hk
      exact List.Nodup.sublist (List.sublist_append_left _ _) hk
  | succ fuel ih =>
    intro queue visited acc hinv
    cases queue with
    | nil =>
      rw [expandLoop]
      constructor
      · intro e he
        have hea : e ∈ acc ++ ([] : List (VertexId × List VertexId)) := by
          simpa using he
        exact ⟨hinv.accObj e he, hinv.linkedAll e hea, hinv.headsAll e hea,
          hinv.nodupPath e hea,
          fun x hx => hinv.storeVisited x (hinv.pathVisited e hea x hx),
          hinv.pathSet e hea, hinv.storeEntry e hea⟩
      · have := hinv.keysNodup
        simpa using this
    | cons hd rest =>
      obtain ⟨n, path⟩ := hd
      by_cases hv : n ∈ visited
      · rw [expandLoop, if_pos hv]
        exact ih rest visited acc hinv.drop_head
      · rw [expandLoop, if_neg hv]
        by_cases hrel : n.relation = none
        · rw [if_pos hrel]
          exact ih rest visited _ (hinv.emit hrel)
        · rw [if_neg hrel]
          simp only
          exact ih _ _ _ (hinv.expand_step hcl hin hv hrel)

/-- A successfully resolved expand start vertex is stored under its id. -/
lemma lookup_of_expandStart {g : RelationGraph} {dst : Set} {sv : Vertex}
    (h : expandStart g dst = some sv) : lookupVertex g sv.id = some sv := by
  unfold expandStart at h
  have keyed : ∀ key : VertexId, lookupVertex g key = some sv →
      lookupVertex g sv.id = some sv := by
    intro key hk
    have hid : sv.id = key := by
      have := List.find?_some hk
      simpa using this
    rwa [hid]
  cases hdst : lookupVertex g dst.vertexId with
  | some v =>
    rw [hdst] at h
    have h2 : some v = some sv := h
    cases h2
    exact keyed _ hdst
  | none =>
    rw [hdst] at h
    exact keyed _ h

/-- The expand start vertex is the destination vertex or its wildcard. -/
lemma expandStart_id {g : RelationGraph} {dst : Set} {sv : Vertex}
    (h : expandStart g dst = some sv) :
    sv.id = dst.vertexId ∨
    sv.id = ⟨dst.ns, WILDCARD_ID, some dst.relation⟩ := by
  unfold expandStart at h
  cases hdst : lookupVertex g dst.vertexId with
  | some v =>
    rw [hdst] at h
    have h2 : some v = some sv := h
    cases h2
    exact Or.inl (mem_of_lookup hdst).2
  | none =>
    rw [hdst] at h
    exact Or.inr (mem_of_lookup h).2

/-- The expand start vertex satisfies the destination-match predicate. -/
lemma expandStart_match {g : RelationGraph} {dst : Set} {sv : Vertex}
    (h : expandStart g dst = some sv) : dstMatch dst sv.id = true := by
  rcases expandStart_id h with hid | hid <;> simp [dstMatch, hid, Set.vertexId]

/-- The expand start vertex is a set vertex (its id carries a relation). -/
lemma expandStart_relation {g : RelationGraph} {dst : Set} {sv : Vertex}
    (h : expandStart g dst = some sv) : sv.id.relation ≠ none := by
  rcases expandStart_id h with hid | hid <;> simp [hid, Set.vertexId]

/-- The invariant holds for the initial state of the `expand` loop. -/
lemma expand_initial_inv {g : RelationGraph} {dst : Set} {sv : Vertex}
    (hcl : Closed g) (hin : InNodup g)
    (hst : expandStart g dst = some sv) :
    ExpInv g sv.id (sv.edges_in.map fun u => (u, [sv.id])) [sv.id] [] := by
  have hlk : lookupVertex g sv.id = some sv := lookup_of_expandStart hst
  have hsvmem : sv ∈ g.verticies := (mem_of_lookup hlk).1
  have hinid : inIds g sv.id = sv.edges_in := by
    unfold inIds
    rw [hlk]
  have hsplit : ∀ e ∈ ([] : List (VertexId × List VertexId)) ++
      sv.edges_in.map fun u => (u, [sv.id]),
      ∃ u ∈ sv.edges_in, e = (u, [sv.id]) := by
    intro e he
    simp only [List.nil_append] at he
    obtain ⟨u, hu, he2⟩ := List.mem_map.1 he
    exact ⟨u, hu, he2.symm⟩
  refine
    { accObj := by intro e he; simp at he
      linkedAll := ?_
      headsAll := ?_
      nodupPath := ?_
      pathVisited := ?_
      pathSet := ?_
      storeEntry := ?_
      storeVisited := ?_
      lastVisited := ?_
      keysNodup := ?_ }
  · intro e he
    obtain ⟨u, hu, he2⟩ := hsplit e he
    rw [he2]
    show u ∈ inIds g sv.id
    rw [hinid]
    exact hu
  · intro e he
    obtain ⟨u, hu, he2⟩ := hsplit e he
    rw [he2]
    rfl
  · intro e he
    obtain ⟨u, hu, he2⟩ := hsplit e he
    rw [he2]
    exact List.nodup_singleton _
  · intro e he
    obtain ⟨u, hu, he2⟩ := hsplit e he
    rw [he2]
    intro x hx
    simpa using hx
  · intro e he
    obtain ⟨u, hu, he2⟩ := hsplit e he
    rw [he2]
    intro x hx
    have : x = sv.id := by simpa using hx
    rw [this]
    exact expandStart_relation hst
  · intro e he
    obtain ⟨u, hu, he2⟩ := hsplit e he
    rw [he2]
    exact (hcl sv hsvmem).2 u hu
  · intro x hx
    have : x = sv.id := by simpa using hx
    exact ⟨sv, hsvmem, this.symm⟩
  · intro e he
    obtain ⟨u, hu, he2⟩ := hsplit e he
    rw [he2]
    exact ⟨sv.id, by simp, by simp⟩
  · simp only [List.nil_append, List.map_map]
    refine List.Nodup.map ?_ (hin sv hsvmem)
    intro a b hab
    simpa [entryKey] using congrArg Prod.fst hab

/-- Reconstruct a vertex id from its rendered set when a relation is
present. -/
lemma toSet_inj {x y : VertexId} (hx : x.relation ≠ none)
    (hy : y.relation ≠ none) (h : toSet x = toSet y) : x = y := by
  obtain ⟨a, ha⟩ := Option.ne_none_iff_exists'.1 hx
  obtain ⟨b, hb⟩ := Option.ne_none_iff_exists'.1 hy
  unfold toSet at h
  have h1 : x.ns = y.ns := congrArg Set.ns h
  have h2 : x.id = y.id := congrArg Set.id h
  have h3 : x.relation.getD "" = y.relation.getD "" := congrArg Set.relation h
  rw [ha, hb] at h3
  simp at h3
  cases x; cases y
  simp_all

/-- Mapping `toSet` over relation-carrying ids is injective. -/
lemma map_toSet_inj : ∀ {l1 l2 : List VertexId},
    (∀ x ∈ l1, x.relation ≠ none) → (∀ x ∈ l2, x.relation ≠ none) →
    l1.map toSet = l2.map toSet → l1 = l2 := by
  intro l1
  induction l1 with
  | nil =>
    intro l2 _ _ h
    cases l2 with
    | nil => rfl
    | cons b bs => simp at h
  | cons a as ih =>
    intro l2 h1 h2 h
    cases l2 with
    | nil => simp at h
    | cons b bs =>
      simp only [List.map_cons, List.cons.injEq] at h
      have hab : a = b :=
        toSet_inj (h1 a (by simp)) (h2 b (by simp)) h.1
      have hrest : as = bs :=
        ih (fun x hx => h1 x (by simp [hx]))
          (fun x hx => h2 x (by simp [hx])) h.2
      rw [hab, hrest]

/-- Claim C4 (amended): the list returned by `expand` is duplicate-free as
a list of (object, path) pairs: each pair corresponds to one discovery of
an object from a distinct expanded set parent. (The same object may occur
in several pairs — see `expand_duplicate_object`.) -/
theorem expand_nodup_pairs (g : RelationGraph) (dst : Set)
    (hwf : Wellformed g) : (g.expand dst).Nodup := by
  obtain ⟨hnd, hcl, hsym, hin⟩ := hwf
  unfold RelationGraph.expand
  cases hst : expandStart g dst with
  | none => simp
  | some sv =>
    simp only
    obtain ⟨hprops, hkeys⟩ := expandLoop_props hcl hin (expandFuel g)
      (sv.edges_in.map fun u => (u, [sv.id])) [sv.id] []
      (expand_initial_inv hcl hin hst)
    have hLnodup := List.Nodup.of_map _ hkeys
    refine List.Nodup.map_on ?_ hLnodup
    intro e1 he1 e2 he2 heq
    obtain ⟨hrel1, _, _, _, _, hps1, _⟩ := hprops e1 he1
    obtain ⟨hrel2, _, _, _, _, hps2, _⟩ := hprops e2 he2
    simp only [Prod.mk.injEq] at heq
    have hobj : e1.1 = e2.1 := by
      have hns : e1.1.ns = e2.1.ns := congrArg Object.ns heq.1
      have hid : e1.1.id = e2.1.id := congrArg Object.id heq.1
      cases h1 : e1.1
      cases h2 : e2.1
      rw [h1] at hrel1 hns hid
      rw [h2] at hrel2 hns hid
      simp_all
    have hpath : e1.2 = e2.2 := map_toSet_inj hps1 hps2 heq.2
    cases e1; cases e2
    simp_all

/-- Witness for `expand_nodup_pairs` on the S5 graph. -/
theorem expand_nodup_pairs_witness :
    Wellformed exG5 ∧
    (exG5.expand ⟨"application", "foo", "admin"⟩).Nodup :=
  ⟨by decide, expand_nodup_pairs exG5 ⟨"application", "foo", "admin"⟩
    (by decide)⟩

/-- Every path produced by the `expand` loop keeps its first element, given
that all queued and emitted paths start with `startId`. -/
lemma expandLoop_heads {g : RelationGraph} {startId : VertexId} :
    ∀ fuel queue visited acc,
      (∀ e ∈ acc ++ queue, e.2.head? = some startId) →
      ∀ e ∈ expandLoop g fuel queue visited acc,
        e.2.head? = some startId := by
  intro fuel
  induction fuel with
  | zero =>
    intro queue visited acc hh e he
    rw [expandLoop] at he
    exact hh e (List.mem_append_left _ he)
  | succ fuel ih =>
    intro queue visited acc hh
    cases queue with
    | nil =>
      intro e he
      rw [expandLoop] at he
      exact hh e (List.mem_append_left _ he)
    | cons hd rest =>
      obtain ⟨n, path⟩ := hd
      have hnp : (n, path) ∈ acc ++ (n, path) :: rest :=
        List.mem_append_right _ (List.mem_cons_self _ _)
      by_cases hv : n ∈ visited
      · rw [expandLoop, if_pos hv]
        exact ih rest visited acc
          (fun e he => hh e (mem_queue_drop e he))
      · rw [expandLoop, if_neg hv]
        by_cases hrel : n.relation = none
        · rw [if_pos hrel]
          refine ih rest visited (acc ++ [(n, path)]) ?_
          intro e he
          have heq : (acc ++ [(n, path)]) ++ rest = acc ++ (n, path) :: rest := by
            simp
          exact hh e (heq ▸ he)
        · rw [if_neg hrel]
          simp only
          refine ih _ _ _ ?_
          intro e he
          rcases List.mem_append.1 he with h | h
          · exact hh e (List.mem_append_left _ h)
          · rcases List.mem_append.1 h with h2 | h2
            · exact hh e (mem_queue_drop e (List.mem_append_right _ h2))
            · obtain ⟨u, hu, he2⟩ := List.mem_map.1 h2
              rw [← he2]
              show (path ++ [n]).head? = some startId
              have hph : path.head? = some startId := hh (n, path) hnp
              cases path with
              | nil => simp at hph
              | cons a l => simpa using hph

/-- Claim C5 (amended): every path returned by `expand` has the resolved
destination (start) vertex as its first element, followed by the set
vertices traversed; on the scenario-S5 graph the single returned pair is
`((user, alice), [Set(application, foo, admin), Set(group, admins,
member)])`. -/
theorem expand_path_contents :
    (∀ (g : RelationGraph) (dst : Set) (o : Object) (p : List Set),
      (o, p) ∈ g.expand dst →
      ∃ sv, expandStart g dst = some sv ∧ p.head? = some (toSet sv.id)) ∧
    exG5.expand ⟨"application", "foo", "admin"⟩ =
      [(⟨"user", "alice"⟩,
        [⟨"application", "foo", "admin"⟩, ⟨"group", "admins", "member"⟩])] := by
  constructor
  · intro g dst o p hmem
    unfold RelationGraph.expand at hmem
    cases hst : expandStart g dst with
    | none => rw [hst] at hmem; simp at hmem
    | some sv =>
      rw [hst] at hmem
      simp only at hmem
      obtain ⟨e, he, heq⟩ := List.mem_map.1 hmem
      have hhead := expandLoop_heads (expandFuel g)
        (sv.edges_in.map fun u => (u, [sv.id])) [sv.id] []
        (by
          intro e2 he2
          simp only [List.nil_append] at he2
          obtain ⟨u, hu, he3⟩ := List.mem_map.1 he2
          rw [← he3]
          rfl) e he
      refine ⟨sv, rfl, ?_⟩
      have hp : p = e.2.map toSet := (congrArg Prod.snd heq).symm
      rw [hp, List.head?_map, hhead]
      rfl
  · decide

/-- Witness for `expand_path_contents` at the S5 graph. -/
theorem expand_path_contents_witness :
    ∃ sv, expandStart exG5 ⟨"application", "foo", "admin"⟩ = some sv ∧
      List.head? [(⟨"application", "foo", "admin"⟩ : Set),
        ⟨"group", "admins", "member"⟩] = some (toSet sv.id) :=
  expand_path_contents.1 exG5 ⟨"application", "foo", "admin"⟩
    ⟨"user", "alice"⟩
    [⟨"application", "foo", "admin"⟩, ⟨"group", "admins", "member"⟩]
    (by decide)

/-- Claim C6: expand is complete with respect to check — in a wellformed
graph, every (object, path) pair returned by `expand(dst)` satisfies
`check(object, dst, None) = true`. -/
theorem expand_complete_check (g : RelationGraph) (dst : Set)
    (hwf : Wellformed g) (o : Object) (p : List Set)
    (hmem : (o, p) ∈ g.expand dst) :
    g.check (.obj o) dst none = true := by
  obtain ⟨hnd, hcl, hsym, hin⟩ := hwf
  unfold RelationGraph.expand at hmem
  cases hst : expandStart g dst with
  | none => rw [hst] at hmem; simp at hmem
  | some sv =>
    rw [hst] at hmem
    simp only at hmem
    obtain ⟨e, he, heq⟩ := List.mem_map.1 hmem
    obtain ⟨n, pr⟩ := e
    obtain ⟨hrel, hlinked, hhead, hnodup, hstorep, hpathset, hstoree⟩ :=
      (expandLoop_props hcl hin (expandFuel g) _ _ _
        (expand_initial_inv hcl hin hst)).1 (n, pr) he
    simp only [Prod.mk.injEq] at heq
    have hobj : (⟨n.ns, n.id⟩ : Object) = o := heq.1
    have hovid : (ObjectOrSet.obj o).vertexId = n := by
      rw [← hobj]
      show (⟨n.ns, n.id, none⟩ : VertexId) = n
      have hrel2 : n.relation = none := hrel
      cases hn : n
      rw [hn] at hrel2
      simp_all
    have hlen_pos : pr ≠ [] := by
      intro h; rw [h] at hhead; simp at hhead
    have hpath : pathN g n pr.length sv.id :=
      linked_pathN ⟨hnd, hcl, hsym, hin⟩ hlinked hhead
    obtain ⟨w, hwmem, hwid⟩ := hstoree
    have hlkn : lookupVertex g n = some w := by
      have := lookup_own_id hnd hwmem
      rwa [hwid] at this
    have hres : resolveSrc g (.obj o) = some w := by
      unfold resolveSrc
      rw [hovid, hlkn]
    have hout : outIds g n = w.edges_out := by
      unfold outIds
      rw [hlkn]
    have hsubid : ∀ y ∈ pr, y ∈ g.verticies.map Vertex.id := by
      intro y hy
      obtain ⟨w2, hw2, hw2id⟩ := hstorep y hy
      exact List.mem_map.2 ⟨w2, hw2, hw2id⟩
    have hlenle : pr.length ≤ g.verticies.length := by
      have hsp := (List.Nodup.subperm hnodup hsubid).length_le
      rwa [List.length_map] at hsp
    cases hp : pr with
    | nil => exact absurd hp hlen_pos
    | cons a l =>
      rw [hp] at hpath
      have hpath2 : ∃ x, x ∈ outIds g n ∧ pathN g x l.length sv.id := hpath
      obtain ⟨x, hx, hxpath⟩ := hpath2
      have hfuel : l.length + 1 ≤ graphFuel g := by
        rw [hp] at hlenle
        simp only [List.length_cons] at hlenle
        unfold graphFuel
        omega
      unfold RelationGraph.check
      rw [hres]
      show checkLoop g dst none (graphFuel g) 1 w.edges_out [] = true
      refine checkLoop_complete (expandStart_match hst) l.length (graphFuel g)
        1 w.edges_out [] hfuel ?_ x (Or.inl ?_) hxpath
      · intro v hv; simp at hv
      · rw [← hout]; exact hx

/-- Witness for `expand_complete_check` on the S5 graph: the pair emitted
for alice passes the corresponding check. -/
theorem expand_complete_check_witness :
    Wellformed exG5 ∧
    exG5.check (.obj ⟨"user", "alice"⟩) ⟨"application", "foo", "admin"⟩
      none = true :=
  ⟨by decide, expand_complete_check exG5 ⟨"application", "foo", "admin"⟩
    (by decide) ⟨"user", "alice"⟩
    [⟨"application", "foo", "admin"⟩, ⟨"group", "admins", "member"⟩]
    (by decide)⟩

/-! Preservation of closedness and symmetry by the mutators (claim C7). -/

/-- Membership in a hash-set style edge insertion. -/
lemma mem_insertEdge {x y : VertexId} {l : List VertexId} :
    x ∈ insertEdge y l ↔ x = y ∨ x ∈ l := by
  unfold insertEdge
  by_cases h : y ∈ l
  · rw [if_pos h]
    constructor
    · exact Or.inr
    · rintro (rfl | hx)
      · exact h
      · exact hx
  · rw [if_neg h]
    simp [or_comm]

/-- The edge update keeps the vertex id. -/
lemma updEdge_id (a b : VertexId) (v : Vertex) : (updEdge a b v).id = v.id := by
  unfold updEdge
  by_cases h1 : v.id = a <;> by_cases h2 : v.id = b <;>
    simp [h1, h2] <;> split_ifs <;> simp_all

/-- The out-edges of an updated vertex. -/
lemma updEdge_out (a b : VertexId) (v : Vertex) :
    (updEdge a b v).edges_out =
      if v.id = a then insertEdge b v.edges_out else v.edges_out := by
  unfold updEdge
  by_cases h1 : v.id = a <;> by_cases h2 : v.id = b <;>
    simp [h1, h2] <;> split_ifs <;> simp_all

/-- The in-edges of an updated vertex. -/
lemma updEdge_in (a b : VertexId) (v : Vertex) :
    (updEdge a b v).edges_in =
      if v.id = b then insertEdge a v.edges_in else v.edges_in := by
  unfold updEdge
  by_cases h1 : v.id = a <;> by_cases h2 : v.id = b <;>
    simp [h1, h2] <;> split_ifs <;> simp_all

/-- The removal update keeps the vertex id. -/
lemma updRm_id (sid did : VertexId) (v : Vertex) : (updRm sid did v).id = v.id := by
  unfold updRm
  by_cases h1 : v.id = sid <;> by_cases h2 : v.id = did <;>
    simp [h1, h2] <;> split_ifs <;> simp_all

/-- The out-edges of a removal-updated vertex. -/
lemma updRm_out (sid did : VertexId) (v : Vertex) :
    (updRm sid did v).edges_out =
      if v.id = sid then v.edges_out.filter (fun x => x ≠ did)
      else v.edges_out := by
  unfold updRm
  by_cases h1 : v.id = sid <;> by_cases h2 : v.id = did <;>
    simp [h1, h2] <;> split_ifs <;> simp_all

/-- The in-edges of a removal-updated vertex. -/
lemma updRm_in (sid did : VertexId) (v : Vertex) :
    (updRm sid did v).edges_in =
      if v.id = did then v.edges_in.filter (fun x => x ≠ sid)
      else v.edges_in := by
  unfold updRm
  by_cases h1 : v.id = sid <;> by_cases h2 : v.id = did <;>
    simp [h1, h2] <;> split_ifs <;> simp_all

/-- Adding an edge does not change the set of stored ids. -/
lemma hasId_add_edge {g : RelationGraph} {a b x : VertexId} :
    hasId (add_edge g a b) x ↔ hasId g x := by
  constructor
  · rintro ⟨w, hw, hwid⟩
    obtain ⟨v, hv, rfl⟩ := List.mem_map.1 hw
    rw [updEdge_id] at hwid
    exact ⟨v, hv, hwid⟩
  · rintro ⟨v, hv, hvid⟩
    exact ⟨updEdge a b v, List.mem_map_of_mem _ hv, by rw [updEdge_id]; exact hvid⟩

/-- Adding an edge between stored vertices preserves closedness. -/
lemma closed_add_edge {g : RelationGraph} {a b : VertexId} (hcl : Closed g)
    (ha : hasId g a) (hb : hasId g b) : Closed (add_edge g a b) := by
  intro w hw
  obtain ⟨v, hv, rfl⟩ := List.mem_map.1 hw
  constructor
  · intro x hx
    rw [updEdge_out] at hx
    rw [hasId_add_edge]
    by_cases h1 : v.id = a
    · rw [if_pos h1, mem_insertEdge] at hx
      rcases hx with rfl | hx
      · exact hb
      · exact (hcl v hv).1 x hx
    · rw [if_neg h1] at hx
      exact (hcl v hv).1 x hx
  · intro x hx
    rw [updEdge_in] at hx
    rw [hasId_add_edge]
    by_cases h1 : v.id = b
    · rw [if_pos h1, mem_insertEdge] at hx
      rcases hx with rfl | hx
      · exact ha
      · exact (hcl v hv).2 x hx
    · rw [if_neg h1] at hx
      exact (hcl v hv).2 x hx

/-- Adding an edge preserves symmetry: both adjacency sides are extended. -/
lemma symm_add_edge {g : RelationGraph} {a b : VertexId} (hsym : Symm g) :
    Symm (add_edge g a b) := by
  intro u' hu' w' hw'
  obtain ⟨u, hu, rfl⟩ := List.mem_map.1 hu'
  obtain ⟨w, hw, rfl⟩ := List.mem_map.1 hw'
  rw [updEdge_id, updEdge_id, updEdge_out, updEdge_in]
  by_cases h1 : u.id = a <;> by_cases h2 : w.id = b
  · rw [if_pos h1, if_pos h2, mem_insertEdge, mem_insertEdge]
    constructor
    · intro _; exact Or.inl h1
    · intro _; exact Or.inl h2
  · rw [if_pos h1, if_neg h2, mem_insertEdge, or_iff_right h2]
    exact hsym u hu w hw
  · rw [if_neg h1, if_pos h2, mem_insertEdge, or_iff_right h1]
    exact hsym u hu w hw
  · rw [if_neg h1, if_neg h2]
    exact hsym u hu w hw

/-- A failed lookup means the id is not stored. -/
lemma lookup_none_not_hasId {g : RelationGraph} {i : VertexId}
    (h : lookupVertex g i = none) : ¬ hasId g i := by
  rintro ⟨v, hv, hvid⟩
  have := List.find?_eq_none.1 h v hv
  simp [hvid] at this

/-- After `getOrCreate` the requested id is stored. -/
lemma hasId_getOrCreate_self {g : RelationGraph} {i : VertexId} :
    hasId (getOrCreate g i) i := by
  unfold getOrCreate
  cases h : lookupVertex g i with
  | some v =>
    obtain ⟨hm, hid⟩ := mem_of_lookup h
    exact ⟨v, hm, hid⟩
  | none =>
    exact ⟨⟨i, [], []⟩, by simp, rfl⟩

/-- `getOrCreate` keeps every previously stored id. -/
lemma hasId_getOrCreate_mono {g : RelationGraph} {i x : VertexId}
    (h : hasId g x) : hasId (getOrCreate g i) x := by
  unfold getOrCreate
  cases hl : lookupVertex g i with
  | some v => exact h
  | none =>
    obtain ⟨v, hv, hvid⟩ := h
    exact ⟨v, List.mem_append_left _ hv, hvid⟩

/-- `getOrCreate` preserves closedness. -/
lemma closed_getOrCreate {g : RelationGraph} {i : VertexId} (hcl : Closed g) :
    Closed (getOrCreate g i) := by
  unfold getOrCreate
  cases hl : lookupVertex g i with
  | some v => exact hcl
  | none =>
    intro v hv
    rcases List.mem_append.1 hv with hv2 | hv2
    · refine ⟨fun x hx => ?_, fun x hx => ?_⟩
      · obtain ⟨w, hw, hwid⟩ := (hcl v hv2).1 x hx
        exact ⟨w, List.mem_append_left _ hw, hwid⟩
      · obtain ⟨w, hw, hwid⟩ := (hcl v hv2).2 x hx
        exact ⟨w, List.mem_append_left _ hw, hwid⟩
    · have hv3 : v = ⟨i, [], []⟩ := by simpa using hv2
      subst hv3
      exact ⟨fun x hx => by simp at hx, fun x hx => by simp at hx⟩

/-- `getOrCreate` preserves symmetry (a new vertex has no edges, and no
stored edge can reference its id, by closedness). -/
lemma symm_getOrCreate {g : RelationGraph} {i : VertexId} (hcl : Closed g)
    (hsym : Symm g) : Symm (getOrCreate g i) := by
  unfold getOrCreate
  cases hl : lookupVertex g i with
  | some v => exact hsym
  | none =>
    have hno : ¬ hasId g i := lookup_none_not_hasId hl
    intro u hu w hw
    rcases List.mem_append.1 hu with hu2 | hu2 <;>
      rcases List.mem_append.1 hw with hw2 | hw2
    · exact hsym u hu2 w hw2
    · have hw3 : w = ⟨i, [], []⟩ := by simpa using hw2
      subst hw3
      constructor
      · intro hx
        exact absurd ((hcl u hu2).1 _ hx) hno
      · intro hx
        simp at hx
    · have hu3 : u = ⟨i, [], []⟩ := by simpa using hu2
      subst hu3
      constructor
      · intro hx
        simp at hx
      · intro hx
        exact absurd ((hcl w hw2).2 _ hx) hno
    · have hu3 : u = ⟨i, [], []⟩ := by simpa using hu2
      have hw3 : w = ⟨i, [], []⟩ := by simpa using hw2
      subst hu3; subst hw3
      simp

/-- Removing an edge does not change the set of stored ids. -/
lemma hasId_rmEdge {g : RelationGraph} {sid did x : VertexId} :
    hasId (⟨g.verticies.map (updRm sid did)⟩ : RelationGraph) x ↔ hasId g x := by
  constructor
  · rintro ⟨w, hw, hwid⟩
    obtain ⟨v, hv, rfl⟩ := List.mem_map.1 hw
    rw [updRm_id] at hwid
    exact ⟨v, hv, hwid⟩
  · rintro ⟨v, hv, hvid⟩
    exact ⟨updRm sid did v, List.mem_map_of_mem _ hv, by rw [updRm_id]; exact hvid⟩

/-- Edge removal preserves closedness. -/
lemma closed_rmEdge {g : RelationGraph} {sid did : VertexId} (hcl : Closed g) :
    Closed (⟨g.verticies.map (updRm sid did)⟩ : RelationGraph) := by
  intro w hw
  obtain ⟨v, hv, rfl⟩ := List.mem_map.1 hw
  constructor
  · intro x hx
    rw [updRm_out] at hx
    rw [hasId_rmEdge]
    by_cases h1 : v.id = sid
    · rw [if_pos h1] at hx
      exact (hcl v hv).1 x (List.mem_of_mem_filter hx)
    · rw [if_neg h1] at hx
      exact (hcl v hv).1 x hx
  · intro x hx
    rw [updRm_in] at hx
    rw [hasId_rmEdge]
    by_cases h1 : v.id = did
    · rw [if_pos h1] at hx
      exact (hcl v hv).2 x (List.mem_of_mem_filter hx)
    · rw [if_neg h1] at hx
      exact (hcl v hv).2 x hx

/-- Edge removal preserves symmetry: both adjacency sides are trimmed. -/
lemma symm_rmEdge {g : RelationGraph} {sid did : VertexId} (hsym : Symm g) :
    Symm (⟨g.verticies.map (updRm sid did)⟩ : RelationGraph) := by
  intro u' hu' w' hw'
  obtain ⟨u, hu, rfl⟩ := List.mem_map.1 hu'
  obtain ⟨w, hw, rfl⟩ := List.mem_map.1 hw'
  rw [updRm_id, updRm_id, updRm_out, updRm_in]
  by_cases h1 : u.id = sid <;> by_cases h2 : w.id = did
  · rw [if_pos h1, if_pos h2]
    constructor
    · intro hx
      have := List.of_mem_filter hx
      simp [h2] at this
    · intro hx
      have := List.of_mem_filter hx
      simp [h1] at this
  · rw [if_pos h1, if_neg h2]
    constructor
    · intro hx
      exact (hsym u hu w hw).1 (List.mem_of_mem_filter hx)
    · intro hx
      refine List.mem_filter.2 ⟨(hsym u hu w hw).2 hx, by simpa using h2⟩
  · rw [if_neg h1, if_pos h2]
    constructor
    · intro hx
      refine List.mem_filter.2 ⟨(hsym u hu w hw).1 hx, by simpa using h1⟩
    · intro hx
      exact (hsym u hu w hw).2 (List.mem_of_mem_filter hx)
  · rw [if_neg h1, if_neg h2]
    exact hsym u hu w hw

/-- Dropping a fully isolated vertex preserves closedness and symmetry:
symmetry guarantees no surviving edge mentions it. -/
lemma cs_gc {g : RelationGraph} {v0 : Vertex} (hcl : Closed g) (hsym : Symm g)
    (hmem : v0 ∈ g.verticies) (hei : v0.edges_in = [])
    (heo : v0.edges_out = []) :
    Closed (⟨g.verticies.filter fun w => w.id ≠ v0.id⟩ : RelationGraph) ∧
    Symm (⟨g.verticies.filter fun w => w.id ≠ v0.id⟩ : RelationGraph) := by
  constructor
  · intro u hu
    have hu2 : u ∈ g.verticies := List.mem_of_mem_filter hu
    constructor
    · intro x hx
      have hx0 : x ≠ v0.id := by
        intro he
        subst he
        have := (hsym u hu2 v0 hmem).1 hx
        rw [hei] at this
        simp at this
      obtain ⟨w, hw, hwid⟩ := (hcl u hu2).1 x hx
      refine ⟨w, List.mem_filter.2 ⟨hw, ?_⟩, hwid⟩
      simp [hwid, hx0]
    · intro x hx
      have hx0 : x ≠ v0.id := by
        intro he
        subst he
        have := (hsym u hu2 v0 hmem).2
        have h2 : u.id ∈ v0.edges_out := by
          rw [← updEdge_id v0.id v0.id v0] at hx
          exact (hsym v0 hmem u hu2).2 (by
            rw [updEdge_id] at hx
            exact hx)
        rw [heo] at h2
        simp at h2
      obtain ⟨w, hw, hwid⟩ := (hcl u hu2).2 x hx
      refine ⟨w, List.mem_filter.2 ⟨hw, ?_⟩, hwid⟩
      simp [hwid, hx0]
  · intro u hu w hw
    exact hsym u (List.mem_of_mem_filter hu) w (List.mem_of_mem_filter hw)

/-- `gcVertex` preserves closedness and symmetry. -/
lemma cs_gcVertex {g : RelationGraph} (h : Closed g ∧ Symm g) (i : VertexId) :
    Closed (gcVertex g i) ∧ Symm (gcVertex g i) := by
  unfold gcVertex
  cases hl : lookupVertex g i with
  | none => exact h
  | some v =>
    show Closed (if v.edges_in = [] ∧ v.edges_out = [] then
        (⟨g.verticies.filter fun w => w.id ≠ i⟩ : RelationGraph) else g) ∧
      Symm (if v.edges_in = [] ∧ v.edges_out = [] then
        (⟨g.verticies.filter fun w => w.id ≠ i⟩ : RelationGraph) else g)
    by_cases hc : v.edges_in = [] ∧ v.edges_out = []
    · rw [if_pos hc]
      obtain ⟨hmem, hid⟩ := mem_of_lookup hl
      have := cs_gc h.1 h.2 hmem hc.1 hc.2
      rwa [hid] at this
    · rw [if_neg hc]
      exact h

/-- `insert` preserves closedness and symmetry. -/
lemma cs_insert {g : RelationGraph} (h : Closed g ∧ Symm g)
    (src : ObjectOrSet) (dst : Set) :
    Closed (g.insert src dst) ∧ Symm (g.insert src dst) := by
  unfold RelationGraph.insert
  simp only
  set sw : VertexId := ⟨src.nsOf, WILDCARD_ID, src.relationOf⟩ with hsw
  set dw : VertexId := ⟨dst.ns, WILDCARD_ID, some dst.relation⟩ with hdw
  set g4 := getOrCreate (getOrCreate (getOrCreate (getOrCreate g sw)
    src.vertexId) dw) dst.vertexId with hg4
  have hc4 : Closed g4 :=
    closed_getOrCreate (closed_getOrCreate (closed_getOrCreate
      (closed_getOrCreate h.1)))
  have hs4 : Symm g4 :=
    symm_getOrCreate (closed_getOrCreate (closed_getOrCreate
      (closed_getOrCreate h.1)))
      (symm_getOrCreate (closed_getOrCreate (closed_getOrCreate h.1))
        (symm_getOrCreate (closed_getOrCreate h.1)
          (symm_getOrCreate h.1 h.2)))
  have h4 : Closed g4 ∧ Symm g4 := ⟨hc4, hs4⟩
  have hid1 : hasId g4 sw :=
    hasId_getOrCreate_mono (hasId_getOrCreate_mono (hasId_getOrCreate_mono
      hasId_getOrCreate_self))
  have hid2 : hasId g4 src.vertexId :=
    hasId_getOrCreate_mono (hasId_getOrCreate_mono hasId_getOrCreate_self)
  have hid3 : hasId g4 dw :=
    hasId_getOrCreate_mono hasId_getOrCreate_self
  have hid4 : hasId g4 dst.vertexId := hasId_getOrCreate_self
  set g5 := if src.relationOf = none ∧ src.vertexId.id ≠ WILDCARD_ID then
      add_edge g4 src.vertexId sw
    else if ¬ src.relationOf = none then add_edge g4 sw src.vertexId
    else g4 with hg5
  have h5 : (Closed g5 ∧ Symm g5) ∧ hasId g5 src.vertexId ∧
      hasId g5 dw ∧ hasId g5 dst.vertexId := by
    rw [hg5]
    by_cases hc1 : src.relationOf = none ∧ src.vertexId.id ≠ WILDCARD_ID
    · rw [if_pos hc1]
      exact ⟨⟨closed_add_edge h4.1 hid2 hid1, symm_add_edge h4.2⟩,
        hasId_add_edge.2 hid2, hasId_add_edge.2 hid3, hasId_add_edge.2 hid4⟩
    · rw [if_neg hc1]
      by_cases hc2 : ¬ src.relationOf = none
      · rw [if_pos hc2]
        exact ⟨⟨closed_add_edge h4.1 hid1 hid2, symm_add_edge h4.2⟩,
          hasId_add_edge.2 hid2, hasId_add_edge.2 hid3, hasId_add_edge.2 hid4⟩
      · rw [if_neg hc2]
        exact ⟨h4, hid2, hid3, hid4⟩
  have h6 : (Closed (add_edge g5 dw dst.vertexId) ∧
      Symm (add_edge g5 dw dst.vertexId)) ∧
      hasId (add_edge g5 dw dst.vertexId) src.vertexId ∧
      hasId (add_edge g5 dw dst.vertexId) dst.vertexId :=
    ⟨⟨closed_add_edge h5.1.1 h5.2.2.1 h5.2.2.2, symm_add_edge h5.1.2⟩,
      hasId_add_edge.2 h5.2.1, hasId_add_edge.2 h5.2.2.2⟩
  exact ⟨closed_add_edge h6.1.1 h6.2.1 h6.2.2, symm_add_edge h6.1.2⟩

/-- `remove` preserves closedness and symmetry. -/
lemma cs_remove {g : RelationGraph} (h : Closed g ∧ Symm g)
    (src : ObjectOrSet) (dst : Set) :
    Closed (g.remove src dst) ∧ Symm (g.remove src dst) := by
  unfold RelationGraph.remove
  cases hs : lookupVertex g src.vertexId with
  | none => exact h
  | some s =>
    cases hd : lookupVertex g dst.vertexId with
    | none => exact h
    | some d =>
      exact cs_gcVertex (cs_gcVertex
        ⟨closed_rmEdge h.1, symm_rmEdge h.2⟩ s.id) d.id

/-! Sequences of mutator calls (claims C7, C8). -/

/-- A mutator call: an `insert` or a `remove`. -/
inductive GraphOp where
  | ins : ObjectOrSet → Set → GraphOp
  | rem : ObjectOrSet → Set → GraphOp
deriving DecidableEq, Repr

/-- Apply one mutator call. -/
def applyOp (g : RelationGraph) : GraphOp → RelationGraph
  | .ins src dst => g.insert src dst
  | .rem src dst => g.remove src dst

/-- Apply a sequence of mutator calls to the empty graph. -/
def applyOps (ops : List GraphOp) : RelationGraph :=
  ops.foldl applyOp emptyGraph

/-- Closedness and symmetry are preserved by any mutator call. -/
lemma cs_applyOp {g : RelationGraph} (h : Closed g ∧ Symm g) (op : GraphOp) :
    Closed (applyOp g op) ∧ Symm (applyOp g op) := by
  cases op with
  | ins src dst => exact cs_insert h src dst
  | rem src dst => exact cs_remove h src dst

/-- Closedness and symmetry are preserved by any sequence of mutators. -/
lemma cs_foldl : ∀ (ops : List GraphOp) (g : RelationGraph),
    Closed g ∧ Symm g →
    Closed (ops.foldl applyOp g) ∧ Symm (ops.foldl applyOp g) := by
  intro ops
  induction ops with
  | nil => intro g h; exact h
  | cons op rest ih => intro g h; exact ih _ (cs_applyOp h op)

/-- The empty graph is closed and symmetric. -/
lemma cs_empty : Closed emptyGraph ∧ Symm emptyGraph :=
  ⟨fun v hv => by simp [emptyGraph] at hv, fun v hv => by simp [emptyGraph] at hv⟩

/-- Claim C7: after every sequence of `insert` and `remove` calls starting
from the empty graph, for every pair of stored vertices `u`, `w`: `w` is in
`u.edges_out` iff `u` is in `w.edges_in`. -/
theorem edge_symmetry_invariant (ops : List GraphOp) :
    ∀ u ∈ (applyOps ops).verticies, ∀ w ∈ (applyOps ops).verticies,
      (w.id ∈ u.edges_out ↔ u.id ∈ w.edges_in) :=
  (cs_foldl ops emptyGraph cs_empty).2

/-- Witness for `edge_symmetry_invariant` on a concrete op sequence with an
insert and a remove. -/
theorem edge_symmetry_invariant_witness :
    Symm (applyOps [GraphOp.ins (.obj ⟨"user", "alice"⟩)
        ⟨"application", "foo", "read"⟩,
      GraphOp.rem (.obj ⟨"user", "alice"⟩)
        ⟨"application", "foo", "read"⟩]) :=
  edge_symmetry_invariant _

/-! Claim C8 — self-loops appear only on wildcard-id vertices (and on a
vertex inserted as both source and destination of the same call). -/

/-- Only wildcard-id vertices carry a self-loop. -/
def SelfLoopsOnlyWildcard (g : RelationGraph) : Prop :=
  ∀ v ∈ g.verticies, v.id ∈ v.edges_out → v.id.id = WILDCARD_ID

instance (g : RelationGraph) : Decidable (SelfLoopsOnlyWildcard g) :=
  List.decidableBAll _ g.verticies

/-- `add_edge` creates a self-loop only when its two endpoints coincide. -/
lemma slow_add_edge {g : RelationGraph} {a b : VertexId}
    (h : SelfLoopsOnlyWildcard g) (hab : a ≠ b ∨ a.id = WILDCARD_ID) :
    SelfLoopsOnlyWildcard (add_edge g a b) := by
  intro w hw hloop
  obtain ⟨v, hv, rfl⟩ := List.mem_map.1 hw
  rw [updEdge_id] at hloop ⊢
  rw [updEdge_out] at hloop
  by_cases h1 : v.id = a
  · rw [if_pos h1, mem_insertEdge] at hloop
    rcases hloop with he | hm
    · rcases hab with hne | hwild
      · exact absurd (h1.symm.trans he) hne
      · rw [h1]; exact hwild
    · exact h v hv hm
  · rw [if_neg h1] at hloop
    exact h v hv hloop

/-- `getOrCreate` creates no self-loop. -/
lemma slow_getOrCreate {g : RelationGraph} {i : VertexId}
    (h : SelfLoopsOnlyWildcard g) : SelfLoopsOnlyWildcard (getOrCreate g i) := by
  unfold getOrCreate
  cases hl : lookupVertex g i with
  | some v => exact h
  | none =>
    intro v hv hloop
    rcases List.mem_append.1 hv with hv2 | hv2
    · exact h v hv2 hloop
    · have hv3 : v = ⟨i, [], []⟩ := by simpa using hv2
      subst hv3
      simp at hloop

/-- Edge removal creates no self-loop. -/
lemma slow_rmEdge {g : RelationGraph} {sid did : VertexId}
    (h : SelfLoopsOnlyWildcard g) :
    SelfLoopsOnlyWildcard (⟨g.verticies.map (updRm sid did)⟩ : RelationGraph) := by
  intro w hw hloop
  obtain ⟨v, hv, rfl⟩ := List.mem_map.1 hw
  rw [updRm_id] at hloop ⊢
  rw [updRm_out] at hloop
  by_cases h1 : v.id = sid
  · rw [if_pos h1] at hloop
    exact h v hv (List.mem_of_mem_filter hloop)
  · rw [if_neg h1] at hloop
    exact h v hv hloop

/-- Garbage collection creates no self-loop. -/
lemma slow_gcVertex {g : RelationGraph} {i : VertexId}
    (h : SelfLoopsOnlyWildcard g) : SelfLoopsOnlyWildcard (gcVertex g i) := by
  unfold gcVertex
  cases hl : lookupVertex g i with
  | none => exact h
  | some v =>
    show SelfLoopsOnlyWildcard (if v.edges_in = [] ∧ v.edges_out = [] then
      (⟨g.verticies.filter fun w => w.id ≠ i⟩ : RelationGraph) else g)
    by_cases hc : v.edges_in = [] ∧ v.edges_out = []
    · rw [if_pos hc]
      intro w hw hloop
      exact h w (List.mem_of_mem_filter hw) hloop
    · rw [if_neg hc]
      exact h

/-- An `insert` whose source and destination identifiers differ creates
self-loops only on wildcard-id vertices. -/
lemma slow_insert {g : RelationGraph} (h : SelfLoopsOnlyWildcard g)
    {src : ObjectOrSet} {dst : Set} (hne : src.vertexId ≠ dst.vertexId) :
    SelfLoopsOnlyWildcard (g.insert src dst) := by
  unfold RelationGraph.insert
  simp only
  set g4 := getOrCreate (getOrCreate (getOrCreate
      (getOrCreate g ⟨src.nsOf, WILDCARD_ID, src.relationOf⟩)
      src.vertexId) ⟨dst.ns, WILDCARD_ID, some dst.relation⟩) dst.vertexId
    with hg4
  have h4 : SelfLoopsOnlyWildcard g4 :=
    slow_getOrCreate (slow_getOrCreate (slow_getOrCreate (slow_getOrCreate h)))
  set g5 := if src.relationOf = none ∧ src.vertexId.id ≠ WILDCARD_ID then
      add_edge g4 src.vertexId ⟨src.nsOf, WILDCARD_ID, src.relationOf⟩
    else if ¬ src.relationOf = none then
      add_edge g4 ⟨src.nsOf, WILDCARD_ID, src.relationOf⟩ src.vertexId
    else g4 with hg5
  have h5 : SelfLoopsOnlyWildcard g5 := by
    rw [hg5]
    by_cases hc1 : src.relationOf = none ∧ src.vertexId.id ≠ WILDCARD_ID
    · rw [if_pos hc1]
      refine slow_add_edge h4 (Or.inl ?_)
      intro he
      exact hc1.2 (by rw [he])
    · rw [if_neg hc1]
      by_cases hc2 : ¬ src.relationOf = none
      · rw [if_pos hc2]
        exact slow_add_edge h4 (Or.inr rfl)
      · rw [if_neg hc2]
        exact h4
  exact slow_add_edge (slow_add_edge h5 (Or.inr rfl)) (Or.inl hne)

/-- A `remove` creates self-loops nowhere. -/
lemma slow_remove {g : RelationGraph} (h : SelfLoopsOnlyWildcard g)
    (src : ObjectOrSet) (dst : Set) :
    SelfLoopsOnlyWildcard (g.remove src dst) := by
  unfold RelationGraph.remove
  cases hs : lookupVertex g src.vertexId with
  | none => exact h
  | some s =>
    cases hd : lookupVertex g dst.vertexId with
    | none => exact h
    | some d => exact slow_gcVertex (slow_gcVertex (slow_rmEdge h))

/-- An op with distinct source and destination when it is an insert. -/
def insertOk : GraphOp → Prop
  | .ins src dst => src.vertexId ≠ dst.vertexId
  | .rem _ _ => True

instance : (op : GraphOp) → Decidable (insertOk op)
  | .ins src dst => inferInstanceAs (Decidable (src.vertexId ≠ dst.vertexId))
  | .rem _ _ => inferInstanceAs (Decidable True)

/-- Self-loop discipline is preserved by mutator sequences whose inserts
have distinct endpoints. -/
lemma slow_foldl : ∀ (ops : List GraphOp) (g : RelationGraph),
    (∀ op ∈ ops, insertOk op) → SelfLoopsOnlyWildcard g →
    SelfLoopsOnlyWildcard (ops.foldl applyOp g) := by
  intro ops
  induction ops with
  | nil => intro g _ h; exact h
  | cons op rest ih =>
    intro g hok h
    cases op with
    | ins src dst =>
      exact ih _ (fun o ho => hok o (List.mem_cons_of_mem _ ho))
        (slow_insert h (hok _ (List.mem_cons_self _ _)))
    | rem src dst =>
      exact ih _ (fun o ho => hok o (List.mem_cons_of_mem _ ho))
        (slow_remove h src dst)

/-- Claim C8 (amended): after every sequence of `insert` and `remove` calls
from the empty graph in which no insert has source identifier equal to
destination identifier, every vertex carrying a self-loop has the wildcard
id `*` — equivalently, no concrete-id vertex ever has itself in its own
`edges_out`. (Inserts whose destination — or set source — id is the
wildcard do create a self-loop on that wildcard vertex, see
`insert_wildcard_self_loop`.) -/
theorem self_loops_only_wildcard (ops : List GraphOp)
    (h : ∀ op ∈ ops, insertOk op) :
    ∀ v ∈ (applyOps ops).verticies, v.id ∈ v.edges_out →
      v.id.id = WILDCARD_ID :=
  slow_foldl ops emptyGraph h (fun v hv => by simp [emptyGraph] at hv)

/-- Concrete op sequence for the C8 witness. -/
def ops8 : List GraphOp :=
  [GraphOp.ins (.obj ⟨"user", "alice"⟩) ⟨"application", "*", "read"⟩,
   GraphOp.rem (.obj ⟨"user", "alice"⟩) ⟨"application", "foo", "read"⟩]

/-- Witness for `self_loops_only_wildcard` on a concrete op sequence
containing a wildcard-destination insert and a remove. -/
theorem self_loops_only_wildcard_witness :
    (∀ op ∈ ops8, insertOk op) ∧
    (∀ v ∈ (applyOps ops8).verticies, v.id ∈ v.edges_out →
      v.id.id = WILDCARD_ID) :=
  ⟨by decide, self_loops_only_wildcard ops8 (by decide)⟩

end Rebacs
